import Mathlib

/-!
Verification of the TidySQL core against its specification.

The development shallowly embeds the Rust sources of the `tidysql` crates:

* `crates/tidysql-syntax/src/lib.rs` — the tree arena, the tree builder
  (event sink with trivia attachment), `token_at_offset`, and the edit
  applicator `apply_edits`;
* `crates/tidysql-lints/src/*.rs` — the three lint rules and the dispatcher;
* `crates/tidysql-config/src/lib.rs` — the configuration data model and its
  defaults;
* `crates/tidysql/src/lib.rs` — the top-level pipeline's lowering of parse
  errors to diagnostics.

Rust strings are sequences of UTF-8 bytes and all ranges in the source are
byte ranges, so source text is modelled as `List Nat` of byte values; for
ASCII text this is exactly the UTF-8 byte sequence, and `asciiBytes` builds
such a list from a Lean string literal.  Machine integers (`usize`, `u16`)
are modelled as `Nat`; no arithmetic in the modelled code can overflow on
the inputs considered (lengths of strings).  Fallible operations
(`apply_edits`, builder steps that `panic!` in Rust) return `Except` or
`Option`.
-/

set_option autoImplicit false

namespace TidySQL

/-! ## Bytes and byte strings -/

/-- Source text as a list of byte values, mirroring Rust's `&str` viewed
through `as_bytes()`/byte offsets. -/
abbrev Str := List Nat

/-- UTF-8 byte sequence of an ASCII string literal (for ASCII characters the
code point equals the single UTF-8 byte). -/
def asciiBytes (s : String) : Str := s.data.map Char.toNat

/-- `u8::is_ascii_uppercase`. -/
def isAsciiUpperByte (b : Nat) : Bool := 65 ≤ b && b ≤ 90

/-- `u8::is_ascii_lowercase`. -/
def isAsciiLowerByte (b : Nat) : Bool := 97 ≤ b && b ≤ 122

/-- `u8::is_ascii_alphabetic`. -/
def isAsciiAlphaByte (b : Nat) : Bool := isAsciiUpperByte b || isAsciiLowerByte b

/-- `u8::to_ascii_lowercase`. -/
def toLowerByte (b : Nat) : Nat := if isAsciiUpperByte b then b + 32 else b

/-- `u8::to_ascii_uppercase`. -/
def toUpperByte (b : Nat) : Nat := if isAsciiLowerByte b then b - 32 else b

/-- `str::to_ascii_lowercase`. -/
def toLowerStr (s : Str) : Str := s.map toLowerByte

/-- `str::to_ascii_uppercase`. -/
def toUpperStr (s : Str) : Str := s.map toUpperByte

/-- `str::eq_ignore_ascii_case`: equality after ASCII-lowercasing both
sides. -/
def eqIgnoreAsciiCase (a b : Str) : Bool := toLowerStr a == toLowerStr b

/-- `str::contains(needle)` for literal needles: substring (infix)
search. -/
def containsStr (haystack needle : Str) : Bool := decide (needle <:+: haystack)

/-- The byte slice `s[a..b]` (valid uses in the modelled code always have
`a ≤ b ≤ s.len()`). -/
def sliceStr (s : Str) (a b : Nat) : Str := (s.drop a).take (b - a)

/-- `str::is_char_boundary`: true at `0`, at the length of the string, and
at any index holding a byte that is not a UTF-8 continuation byte. -/
def isCharBoundary (s : Str) (i : Nat) : Bool :=
  if i = 0 then true
  else
    match s.get? i with
    | none => i == s.length
    | some b => b < 128 || 192 ≤ b

/-! ## Text edits and the edit applicator (`apply_edits`) -/

/-- `TextEdit`: a byte-range replacement.  The `text_size` crate guarantees
`start ≤ endOff` for every constructed range. -/
structure TextEdit where
  start : Nat
  endOff : Nat
  replacement : Str
  deriving DecidableEq, Repr

/-- `TextEdit::replace`. -/
def TextEdit.replace (start endOff : Nat) (replacement : Str) : TextEdit :=
  ⟨start, endOff, replacement⟩

/-- `TextEdit.insert`: a zero-length range at `offset`. -/
def TextEdit.insertAt (offset : Nat) (text : Str) : TextEdit :=
  TextEdit.replace offset offset text

/-- `EditError`. -/
inductive EditError where
  | overlap
  | outOfBounds
  | invalidBoundary
  deriving DecidableEq, Repr

/-- Insert an edit into a list sorted by `start`, after all entries with an
equal or smaller key.  Folding this over a list is a stable sort by
`range.start`, the behaviour of Rust's `sort_by_key`. -/
def insertByStart (e : TextEdit) : List TextEdit → List TextEdit
  | [] => [e]
  | x :: xs => if x.start ≤ e.start then x :: insertByStart e xs else e :: x :: xs

/-- Stable sort of the edits by `range.start` (`edits.sort_by_key(|e|
e.range.start())`). -/
def sortByStart (edits : List TextEdit) : List TextEdit :=
  edits.foldl (fun acc e => insertByStart e acc) []

/-- The loop body of `apply_edits`: walk the sorted edits left to right with
a cursor, accumulating the output string `out`. -/
def applyGo (text : Str) : List TextEdit → Nat → Str → Except EditError Str
  | [], cursor, out => .ok (out ++ text.drop cursor)
  | e :: rest, cursor, out =>
    if e.start < cursor then .error .overlap
    else if text.length < e.endOff then .error .outOfBounds
    else if !isCharBoundary text e.start || !isCharBoundary text e.endOff then
      .error .invalidBoundary
    else applyGo text rest e.endOff (out ++ sliceStr text cursor e.start ++ e.replacement)

/-- `apply_edits` from `tidysql-syntax`: return the text unchanged for an
empty edit list, otherwise stably sort by range start and apply left to
right. -/
def applyEdits (text : Str) (edits : List TextEdit) : Except EditError Str :=
  if edits.isEmpty then .ok text
  else applyGo text (sortByStart edits) 0 []

deriving instance DecidableEq for Except

/-! ## Syntax kinds, dialects, severities, configuration

`SyntaxKind` is supplied by the external parser as a closed enumeration; we
model the kinds the core consumes (trivia kinds, meta kinds, keyword,
`SetOperator`, `Unparsable`, …).  The `is_whitespace` / `is_comment` /
`is_meta` predicates of `ParserToken` are functions of the kind. -/

inductive SyntaxKind where
  | endOfFile
  | keyword
  | identifier
  | numericLiteral
  | whitespace
  | comment
  | inlineComment
  | blockComment
  | indent
  | dedent
  | file
  | statement
  | setOperator
  | unparsable
  deriving DecidableEq, Repr

/-- `ParserToken::is_whitespace`. -/
def isWhitespaceKind : SyntaxKind → Bool
  | .whitespace => true
  | _ => false

/-- `ParserToken::is_comment`. -/
def isCommentKind : SyntaxKind → Bool
  | .comment | .inlineComment | .blockComment => true
  | _ => false

/-- Trivia = whitespace or comment. -/
def isTriviaKind (k : SyntaxKind) : Bool := isWhitespaceKind k || isCommentKind k

/-- `ParserToken::is_meta` (parser-internal markers such as indent/dedent). -/
def isMetaKind : SyntaxKind → Bool
  | .indent | .dedent => true
  | _ => false

/-- `DialectKind` / `Dialect`: the closed enumeration of 14 SQL dialects. -/
inductive Dialect where
  | ansi
  | athena
  | bigquery
  | clickhouse
  | databricks
  | duckdb
  | mysql
  | postgres
  | redshift
  | snowflake
  | sparksql
  | sqlite
  | trino
  | tsql
  deriving DecidableEq, Repr

/-- `Severity` from `tidysql-config`. -/
inductive Severity where
  | error
  | warn
  | info
  | hint
  | allow
  deriving DecidableEq, Repr

/-- `CapitalisationPolicy` from `tidysql-config`. -/
inductive CapitalisationPolicy where
  | consistent
  | upper
  | lower
  | pascal
  | capitalise
  | snake
  | camel
  deriving DecidableEq, Repr

/-- `DisallowNamesConfig`: names plus compiled regexes.  The regex engine is
an external collaborator; a compiled regex is modelled by its `is_match`
predicate. -/
structure DisallowNamesConfig where
  names : List Str
  regexes : List (Str → Bool)

/-- `Default for DisallowNamesConfig`. -/
def DisallowNamesConfig.default : DisallowNamesConfig := ⟨[], []⟩

/-- `InconsistentCapitalisationConfig`. -/
structure InconsistentCapitalisationConfig where
  capitalisationPolicy : CapitalisationPolicy
  ignoreWords : List Str
  ignoreWordsRegex : List (Str → Bool)

/-- `Default for InconsistentCapitalisationConfig`. -/
def InconsistentCapitalisationConfig.default : InconsistentCapitalisationConfig :=
  ⟨.consistent, [], []⟩

/-- `LintConfig<T>`: a severity level plus rule-specific options. -/
structure LintConfig (T : Type) where
  level : Severity
  options : T

/-- `ExplicitUnionConfig` is an empty options table. -/
structure ExplicitUnionConfig where
  deriving DecidableEq, Repr

/-- The `lints` table of the configuration. -/
structure Lints where
  disallowNames : LintConfig DisallowNamesConfig
  explicitUnion : LintConfig ExplicitUnionConfig
  inconsistentCapitalisation : LintConfig InconsistentCapitalisationConfig

/-- `Default for Lints`: `LintConfig::default()` has level `Warn`; the
capitalisation rule's entry is overridden to `Allow`. -/
def Lints.default : Lints :=
  { disallowNames := ⟨.warn, DisallowNamesConfig.default⟩
    explicitUnion := ⟨.warn, ⟨⟩⟩
    inconsistentCapitalisation := ⟨.allow, InconsistentCapitalisationConfig.default⟩ }

/-- The `core` table of the configuration. -/
structure Core where
  dialect : Dialect

/-- The full configuration. -/
structure Config where
  core : Core
  lints : Lints

/-- `Config::default()`. -/
def Config.default : Config := ⟨⟨.ansi⟩, Lints.default⟩

/-! ## Diagnostics and fixes -/

/-- `Fix`: a titled list of edits. -/
structure Fix where
  title : String
  edits : List TextEdit
  deriving DecidableEq, Repr

/-- `Fix::single`. -/
def Fix.single (title : String) (edit : TextEdit) : Fix := ⟨title, [edit]⟩

/-- `Diagnostic` from `tidysql-lints`; the range is a byte range
`(start, end)`. -/
structure Diagnostic where
  code : String
  message : String
  severity : Severity
  rangeStart : Nat
  rangeEnd : Nat
  fix : Option Fix
  deriving DecidableEq, Repr

/-! ## The tree arena -/

/-- The attached-trivia descriptor of a token record.  In the source
`trivia_len` is a `u16` (a longer trivia run aborts the builder); the bound
plays no role in the claims, so the length is a plain `Nat` here. -/
structure AttachedTrivia where
  hasLeadingTrivia : Bool
  hasTrailingTrivia : Bool
  triviaLen : Nat
  deriving DecidableEq, Repr

/-- A token record: kind, trivia descriptor, byte end offset (the start is
implicit from the previous record), parent node index. -/
structure Token where
  kind : SyntaxKind
  attachedTrivia : AttachedTrivia
  endOff : Nat
  parent : Nat
  deriving DecidableEq, Repr

/-- A reference to a node or a token by arena index. -/
inductive NodeOrTokenRef where
  | node (id : Nat)
  | token (id : Nat)
  deriving DecidableEq, Repr

/-- A node record: optional parent, half-open child range into
`node_children`, kind, first and last token index. -/
structure Node where
  parent : Option Nat
  childStart : Nat
  childStop : Nat
  kind : SyntaxKind
  firstToken : Nat
  lastToken : Nat
  deriving DecidableEq, Repr

/-- The arena (`TreeInner`): source text, token vector (index 0 is the
zero-width `EndOfFile` sentinel), node vector (index 0 is the root), and the
flat child pool. -/
structure TreeInner where
  text : Str
  tokens : List Token
  nodes : List Node
  nodeChildren : List NodeOrTokenRef
  deriving DecidableEq, Repr

/-- `TokenId::end`: the recorded end offset of token `i` (valid uses are
in bounds). -/
def tokenEndAt (tree : TreeInner) (i : Nat) : Nat :=
  ((tree.tokens.get? i).map Token.endOff).getD 0

/-- `TokenId::start`: the end offset of the previous (possibly sentinel)
token. -/
def tokenStartAt (tree : TreeInner) (i : Nat) : Nat :=
  tokenEndAt tree (i - 1)

/-- `TokenId::text`: the source slice of the token's byte range. -/
def tokenTextAt (tree : TreeInner) (i : Nat) : Str :=
  sliceStr tree.text (tokenStartAt tree i) (tokenEndAt tree i)

/-- The kind of token `i`. -/
def tokenKindAt (tree : TreeInner) (i : Nat) : SyntaxKind :=
  ((tree.tokens.get? i).map Token.kind).getD .endOfFile

/-- `Node::children`: the slice of the child pool covered by the node's
child range. -/
def childRefs (tree : TreeInner) (n : Node) : List NodeOrTokenRef :=
  (tree.nodeChildren.drop n.childStart).take (n.childStop - n.childStart)

/-- Start offset of a node: start of its first token. -/
def nodeStartOff (tree : TreeInner) (n : Node) : Nat :=
  tokenStartAt tree n.firstToken

/-- End offset of a node: end of its last token. -/
def nodeEndOff (tree : TreeInner) (n : Node) : Nat :=
  tokenEndAt tree n.lastToken

/-- `Node::text`. -/
def nodeText (tree : TreeInner) (n : Node) : Str :=
  sliceStr tree.text (nodeStartOff tree n) (nodeEndOff tree n)

/-- `Node::tokens_range`: the token slice `tokens[first ..= last]`. -/
def tokensRangeSlice (tree : TreeInner) (n : Node) : List Token :=
  (tree.tokens.drop n.firstToken).take (n.lastToken + 1 - n.firstToken)

/-- `slice::partition_point`: on a slice that is partitioned by `p` (all
elements satisfying `p` before all that do not — the case in the modelled
code, whose token end offsets are nondecreasing) the binary search returns
the length of the initial run satisfying `p`, which is how it is defined
here. -/
def partitionPoint {α : Type} (p : α → Bool) (l : List α) : Nat :=
  (l.takeWhile p).length

/-- The node record at index `nid` (valid uses are in bounds). -/
def nodeRecordAt (tree : TreeInner) (nid : Nat) : Node :=
  (tree.nodes.get? nid).getD ⟨Option.none, 0, 0, .endOfFile, 0, 0⟩

/-- `TokenAtOffset` over token indices. -/
inductive TokenAtOffset where
  | none
  | single (t : Nat)
  | between (left right : Nat)
  deriving DecidableEq, Repr

/-- `Node::token_at_offset` from `tidysql-syntax`. -/
def tokenAtOffset (tree : TreeInner) (n : Node) (offset : Nat) : TokenAtOffset :=
  let idx := partitionPoint (fun t => t.endOff ≤ offset) (tokensRangeSlice tree n)
  let tokenIndex := n.firstToken + idx
  if tree.tokens.length ≤ tokenIndex then .none
  else if tokenEndAt tree tokenIndex ≤ offset then .none
  else if 1 < tokenIndex ∧ tokenEndAt tree (tokenIndex - 1) = offset then
    .between (tokenIndex - 1) tokenIndex
  else .single tokenIndex

/-! ## Traversal

`descendants_with_tokens` enumerates, starting from a node, the node itself
followed by its children in order, recursing into child nodes (the
`EnterNode` and `Token` events of `preorder_with_tokens`).  The recursion is
fuelled: in every builder-produced tree a child node's index is strictly
greater than its parent's, so `nodes.length + 1` fuel always suffices. -/

def elementsAux (tree : TreeInner) : Nat → Nat → List NodeOrTokenRef
  | 0, _ => []
  | fuel + 1, nid =>
    match tree.nodes.get? nid with
    | Option.none => []
    | some n =>
      NodeOrTokenRef.node nid ::
        (childRefs tree n).flatMap fun ref =>
          match ref with
          | .token tid => [NodeOrTokenRef.token tid]
          | .node m => elementsAux tree fuel m

/-- `root().descendants_with_tokens()`: the walk from the root node. -/
def rootElements (tree : TreeInner) : List NodeOrTokenRef :=
  elementsAux tree (tree.nodes.length + 1) 0

/-- The texts of all keyword tokens visited by the document-wide walk (the
token stream that `infer_policy` folds over). -/
def keywordTexts (tree : TreeInner) : List Str :=
  (rootElements tree).filterMap fun ref =>
    match ref with
    | .token tid =>
      if tokenKindAt tree tid = .keyword then some (tokenTextAt tree tid) else Option.none
    | .node _ => Option.none

/-! ## The tree builder (event sink)

The builder consumes `EnterNode` / `ExitNode` / `Token` events.  Rust
panics (`expect` on an empty frame stack, `ExitNode` on a node with no
tokens, unbalanced frames in `finish`) are modelled by `Option`.  The
`VecPool` recycling of child vectors is an allocation optimisation with no
observable effect and is not modelled. -/

/-- A token emitted by the external parser: kind plus raw text (the
builder only ever uses the raw text's byte length, `TextSize::of`). -/
structure ParserToken where
  kind : SyntaxKind
  raw : Str
  deriving DecidableEq, Repr

/-- `PendingToken`. -/
structure PendingToken where
  kind : SyntaxKind
  textLen : Nat
  deriving DecidableEq, Repr

/-- `TriviaState`: the pending significant token and its accumulating
leading/trailing trivia (kind and byte length of each trivia token). -/
structure TriviaState where
  pending : Option PendingToken
  leading : List (SyntaxKind × Nat)
  trailing : List (SyntaxKind × Nat)
  deriving DecidableEq, Repr

/-- An open builder frame. -/
structure Frame where
  id : Nat
  children : List NodeOrTokenRef
  tokenRange : Option (Nat × Nat)
  deriving DecidableEq, Repr

/-- The builder state.  The frame stack `opened` stores the top of the
stack first (Rust keeps it last in a `Vec`). -/
structure Builder where
  nodes : List Node
  nodeChildren : List NodeOrTokenRef
  tokens : List Token
  text : Str
  opened : List Frame
  textCursor : Nat
  trivia : TriviaState
  deriving DecidableEq, Repr

/-- `TreeBuilder::new_rootless_with_caps`: empty arenas plus the zero-width
`EndOfFile` sentinel token at index 0 (capacity hints have no observable
effect). -/
def newRootless (text : Str) : Builder :=
  { nodes := []
    nodeChildren := []
    tokens := [⟨.endOfFile, ⟨false, false, 0⟩, 0, 0⟩]
    text
    opened := []
    textCursor := 0
    trivia := ⟨Option.none, [], []⟩ }

/-- `TreeBuilder::bump_range`. -/
def bumpRange : Option (Nat × Nat) → Nat × Nat → Option (Nat × Nat)
  | Option.none, new => some new
  | some (first, _), new => some (first, new.2)

/-- Append one token record, advancing the text cursor by its length
(`advance_text` plus the `tokens.push`). -/
def pushTok (b : Builder) (parent : Nat) (kind : SyntaxKind) (att : AttachedTrivia)
    (len : Nat) : Builder :=
  let endOff := b.textCursor + len
  { b with tokens := b.tokens ++ [⟨kind, att, endOff, parent⟩], textCursor := endOff }

/-- `TreeBuilder::emit_token_with_trivia`: append the leading trivia
tokens, the token itself (with its attached-trivia descriptor), then the
trailing trivia tokens; push the significant token as a child of the top
frame and extend the frame's token range over the whole emitted run.  (In
Rust the child push happens between the token push and the trailing loop;
the updates touch disjoint state, so the final state is identical.) -/
def emitTokenWithTrivia (b : Builder) (leading : List (SyntaxKind × Nat)) (kind : SyntaxKind)
    (tokenLen : Nat) (trailing : List (SyntaxKind × Nat)) : Option Builder :=
  match b.opened with
  | [] => Option.none
  | top :: rest =>
    let parent := top.id
    let firstTokenIndex := b.tokens.length
    let b1 := leading.foldl (fun acc p => pushTok acc parent p.1 ⟨false, false, 0⟩ p.2) b
    let tokenId := b1.tokens.length
    let b2 := pushTok b1 parent kind ⟨!leading.isEmpty, !trailing.isEmpty, leading.length⟩ tokenLen
    let b3 := trailing.foldl
      (fun acc p => pushTok acc parent p.1 ⟨false, false, trailing.length⟩ p.2) b2
    let lastTokenIndex := firstTokenIndex + leading.length + trailing.length
    let top' := { top with
      children := top.children ++ [NodeOrTokenRef.token tokenId]
      tokenRange := bumpRange top.tokenRange (firstTokenIndex, lastTokenIndex) }
    some { b3 with opened := top' :: rest }

/-- `TriviaState::flush_into` via `TreeBuilder::flush_pending`: emit the
pending token with its accumulated trivia bracket and clear the trivia
state; a missing pending token is a no-op that leaves the trivia lists
untouched. -/
def flushPending (b : Builder) : Option Builder :=
  match b.trivia.pending with
  | Option.none => some b
  | some p =>
    (emitTokenWithTrivia b b.trivia.leading p.kind p.textLen b.trivia.trailing).map
      fun b' => { b' with trivia := ⟨Option.none, [], []⟩ }

/-- `TriviaState::on_token`: trivia tokens are buffered (trailing if a
pending token exists, else leading); a meta token flushes the pending token
and is emitted with the accumulated leading list and no trailing trivia;
a significant token flushes the pending token and becomes the new pending
token. -/
def onToken (b : Builder) (pt : ParserToken) : Option Builder :=
  if isTriviaKind pt.kind then
    some { b with
      trivia :=
        if b.trivia.pending.isSome then
          { b.trivia with trailing := b.trivia.trailing ++ [(pt.kind, pt.raw.length)] }
        else
          { b.trivia with leading := b.trivia.leading ++ [(pt.kind, pt.raw.length)] } }
  else if isMetaKind pt.kind then do
    let bf ← flushPending b
    let be ← emitTokenWithTrivia bf bf.trivia.leading pt.kind pt.raw.length []
    some { be with trivia := { be.trivia with leading := [] } }
  else do
    let bf ← flushPending b
    some { bf with trivia := { bf.trivia with pending := some ⟨pt.kind, pt.raw.length⟩ } }

/-- `TreeBuilder::start_node_reserve`: allocate a node record (children and
token fields are placeholders until `ExitNode`), add it as a child of the
enclosing frame if one exists, and open a new frame for it. -/
def startNodeReserve (b : Builder) (kind : SyntaxKind) : Builder :=
  let parent := b.opened.head?.map Frame.id
  let newNode := b.nodes.length
  let nodes := b.nodes ++ [⟨parent, 0, 0, kind, 0, 0⟩]
  let opened :=
    match b.opened with
    | top :: rest => { top with children := top.children ++ [NodeOrTokenRef.node newNode] } :: rest
    | [] => []
  { b with nodes, opened := ⟨newNode, [], Option.none⟩ :: opened }

/-- `TreeBuilder::close_top_frame`: pop the top frame, flush its child list
into the child pool, stamp the token range onto the node record, and bubble
the range to the parent frame.  A frame with no tokens is a protocol error
(`none`). -/
def closeTopFrame (b : Builder) : Option Builder :=
  match b.opened with
  | [] => Option.none
  | top :: rest =>
    match top.tokenRange with
    | Option.none => Option.none
    | some (first, last) =>
      match b.nodes.get? top.id with
      | Option.none => Option.none
      | some nd =>
        let childStart := b.nodeChildren.length
        let nd' := { nd with
          childStart
          childStop := childStart + top.children.length
          firstToken := first
          lastToken := last }
        let rest' :=
          match rest with
          | [] => []
          | p :: ps => { p with tokenRange := bumpRange p.tokenRange (first, last) } :: ps
        some { b with
          nodes := b.nodes.set top.id nd'
          nodeChildren := b.nodeChildren ++ top.children
          opened := rest' }

/-- A parser event (`EventSink`). -/
inductive Event where
  | enterNode (kind : SyntaxKind) (estimatedChildren : Nat)
  | exitNode (kind : SyntaxKind)
  | token (t : ParserToken)
  deriving DecidableEq, Repr

/-- One `EventSink` step: `enter_node` and `exit_node` flush the pending
token first; `token` feeds the trivia state machine. -/
def step (b : Builder) : Event → Option Builder
  | .enterNode kind _est => (flushPending b).map (startNodeReserve · kind)
  | .exitNode _ => flushPending b >>= closeTopFrame
  | .token pt => onToken b pt

/-- `TreeBuilder::finish`: flush the pending token, close the root frame
(or accept an already-closed root), and hand out the arena.  Unbalanced
frames or an empty tree are protocol errors. -/
def finish (b : Builder) : Option TreeInner := do
  let bf ← flushPending b
  let bc ←
    match bf.opened with
    | [] => if bf.nodes.isEmpty then Option.none else some bf
    | [_] => closeTopFrame bf
    | _ => Option.none
  some ⟨bc.text, bc.tokens, bc.nodes, bc.nodeChildren⟩

/-- Run a full event stream through the builder and finalise the tree. -/
def buildTree (text : Str) (events : List Event) : Option TreeInner :=
  events.foldlM step (newRootless text) >>= finish

/-! ## Lint context and rules -/

/-- ASCII rendering of a byte string, used where the Rust code formats a
source slice into a message. -/
def strOfBytes (s : Str) : String := String.mk (s.map Char.ofNat)

/-- `LintContext`. -/
structure LintContext where
  dialect : Dialect
  tree : TreeInner
  config : Config

/-- The kind of node `nid`. -/
def nodeKindAt (tree : TreeInner) (nid : Nat) : SyntaxKind :=
  ((tree.nodes.get? nid).map Node.kind).getD .endOfFile

/-! ### Rule: inconsistent-capitalisation

`tidysql-lints/src/inconsistent_capitalisation.rs`.  (The file
`keyword_case.rs` in the same crate is a stale revision of this rule — it
reads `config.lints.keyword_case`, a field the config crate does not
define, so it cannot compile against `tidysql-config`; the rule consistent
with the rest of the sources is `InconsistentCapitalisation`.) -/

/-- `policy_description`. -/
def policyDescription : CapitalisationPolicy → String
  | .consistent => "consistent"
  | .upper => "uppercase"
  | .lower | .snake => "lowercase"
  | .pascal | .capitalise => "capitalised"
  | .camel => "camelCase"

/-- `is_ignored`: skip-list test (case-insensitive word list, then regex
list). -/
def isIgnored (text : Str) (options : InconsistentCapitalisationConfig) : Bool :=
  options.ignoreWords.any (fun w => eqIgnoreAsciiCase w text)
    || options.ignoreWordsRegex.any (fun r => r text)

/-- `is_all_upper`: no byte is ASCII-lowercase. -/
def isAllUpper (s : Str) : Bool := !s.any isAsciiLowerByte

/-- `is_all_lower`: no byte is ASCII-uppercase. -/
def isAllLower (s : Str) : Bool := !s.any isAsciiUpperByte

/-- `is_capitalised`: first byte (if any) is ASCII-uppercase and no later
byte is ASCII-uppercase; the empty string is accepted. -/
def isCapitalised : Str → Bool
  | [] => true
  | b :: rest => isAsciiUpperByte b && !rest.any isAsciiUpperByte

/-- `capitalise`: first byte uppercased, remaining bytes lowercased. -/
def capitalise : Str → Str
  | [] => []
  | b :: rest => toUpperByte b :: rest.map toLowerByte

/-- `infer_policy`: fold over the document's keyword tokens, counting
all-upper and all-lower texts; `Upper` wins ties. -/
def inferPolicy (tree : TreeInner) : CapitalisationPolicy :=
  let counts := (keywordTexts tree).foldl
    (fun (p : Nat × Nat) text =>
      if isAllUpper text then (p.1 + 1, p.2)
      else if isAllLower text then (p.1, p.2 + 1)
      else p)
    (0, 0)
  if counts.2 ≤ counts.1 then .upper else .lower

/-- `resolve_policy`. -/
def resolvePolicy (policy : CapitalisationPolicy) (tree : TreeInner) : CapitalisationPolicy :=
  match policy with
  | .consistent => inferPolicy tree
  | other => other

/-- `is_correct_case`. -/
def isCorrectCase (text : Str) : CapitalisationPolicy → Bool
  | .consistent => true
  | .upper => isAllUpper text
  | .lower | .snake | .camel => isAllLower text
  | .pascal | .capitalise => isCapitalised text

/-- `apply_case`. -/
def applyCase (text : Str) : CapitalisationPolicy → Str
  | .consistent => text
  | .upper => toUpperStr text
  | .lower | .snake | .camel => toLowerStr text
  | .pascal | .capitalise => capitalise text

/-- `InconsistentCapitalisation::check`. -/
def capCheck (ctx : LintContext) (tid : Nat) : List Diagnostic :=
  let options := ctx.config.lints.inconsistentCapitalisation.options
  let text := tokenTextAt ctx.tree tid
  if isIgnored text options then []
  else
    let policy := resolvePolicy options.capitalisationPolicy ctx.tree
    if isCorrectCase text policy then []
    else
      let fixed := applyCase text policy
      let edit := TextEdit.replace (tokenStartAt ctx.tree tid) (tokenEndAt ctx.tree tid) fixed
      let fix := Fix.single "Fix keyword capitalisation" edit
      [{ code := "inconsistent_capitalisation"
         message := "Keywords must be " ++ policyDescription policy ++ "."
         severity := ctx.config.lints.inconsistentCapitalisation.level
         rangeStart := tokenStartAt ctx.tree tid
         rangeEnd := tokenEndAt ctx.tree tid
         fix := some fix }]

/-- `InconsistentCapitalisation::matches`. -/
def capMatches (kind : SyntaxKind) : Bool := kind == .keyword

/-- `InconsistentCapitalisation::level`. -/
def capLevel (config : Config) : Severity := config.lints.inconsistentCapitalisation.level

/-! ### Rule: disallow-names (`disallow_names.rs`) -/

/-- `strip_identifier_quotes`: strip one matching pair of `"…"`, `` `…` ``
or `[…]` (byte values 34, 96, 91/93). -/
def stripIdentifierQuotes (text : Str) : Str :=
  if text.length < 2 then text
  else
    let first := text.headD 0
    let last := text.getLastD 0
    if (first = 34 ∧ last = 34) ∨ (first = 96 ∧ last = 96) ∨ (first = 91 ∧ last = 93) then
      (text.drop 1).take (text.length - 2)
    else text

/-- `DisallowNames::check`. -/
def disallowCheck (ctx : LintContext) (tid : Nat) : List Diagnostic :=
  let opts := ctx.config.lints.disallowNames.options
  if opts.names.isEmpty && opts.regexes.isEmpty then []
  else
    let raw := tokenTextAt ctx.tree tid
    let candidate := stripIdentifierQuotes raw
    if candidate.isEmpty then []
    else
      let nameMatch := opts.names.any (fun w => eqIgnoreAsciiCase w candidate)
      let regexMatch := opts.regexes.any (fun r => r candidate)
      if !nameMatch && !regexMatch then []
      else
        [{ code := "disallow_names"
           message := "Disallowed name: " ++ strOfBytes candidate ++ "."
           severity := ctx.config.lints.disallowNames.level
           rangeStart := tokenStartAt ctx.tree tid
           rangeEnd := tokenEndAt ctx.tree tid
           fix := Option.none }]

/-- `DisallowNames::matches`: every kind except the comment kinds. -/
def disallowMatches (kind : SyntaxKind) : Bool := !isCommentKind kind

/-- `DisallowNames::level`. -/
def disallowLevel (config : Config) : Severity := config.lints.disallowNames.level

/-! ### Rule: explicit-union (`explicit_union.rs`) -/

/-- `dialect_supports_union`. -/
def dialectSupportsUnion : Dialect → Bool
  | .ansi | .bigquery | .clickhouse | .databricks | .mysql | .redshift | .snowflake
  | .trino => true
  | _ => false

/-- `union_token`: the first child token of the node whose text equals
`"union"` ASCII-case-insensitively. -/
def unionTokenOf (tree : TreeInner) (n : Node) : Option Nat :=
  ((childRefs tree n).filterMap fun ref =>
      match ref with
      | .token tid => some tid
      | .node _ => Option.none).find?
    fun tid => eqIgnoreAsciiCase (tokenTextAt tree tid) (asciiBytes "union")

/-- `build_fix`: insert `" distinct"` after the union token if its text has
no ASCII-uppercase character, else `" DISTINCT"`.  (The Rust code checks
`chars()`; on UTF-8 text a char is ASCII-uppercase precisely when its
(single) byte is, and multi-byte characters consist of bytes ≥ 128, so the
byte-level test is equivalent.) -/
def buildFix (tree : TreeInner) (tid : Nat) : Option Fix :=
  let suffix :=
    if !(tokenTextAt tree tid).any isAsciiUpperByte then asciiBytes " distinct"
    else asciiBytes " DISTINCT"
  some (Fix.single "Add DISTINCT to UNION" (TextEdit.insertAt (tokenEndAt tree tid) suffix))

/-- `ExplicitUnion::check`. -/
def explicitUnionCheck (ctx : LintContext) (nid : Nat) : List Diagnostic :=
  match ctx.tree.nodes.get? nid with
  | Option.none => []
  | some n =>
    if !dialectSupportsUnion ctx.dialect then []
    else
      match unionTokenOf ctx.tree n with
      | Option.none => []
      | some tid =>
        let upper := toUpperStr (nodeText ctx.tree n)
        if !containsStr upper (asciiBytes "UNION") then []
        else if containsStr upper (asciiBytes "ALL")
            || containsStr upper (asciiBytes "DISTINCT") then []
        else
          [{ code := "explicit_union"
             message := "Use UNION DISTINCT or UNION ALL."
             severity := ctx.config.lints.explicitUnion.level
             rangeStart := tokenStartAt ctx.tree tid
             rangeEnd := tokenEndAt ctx.tree tid
             fix := buildFix ctx.tree tid }]

/-- `ExplicitUnion::level`. -/
def explicitUnionLevel (config : Config) : Severity := config.lints.explicitUnion.level

/-! ## The lint dispatcher (`tidysql-lints/src/lib.rs`) -/

/-- `run_node_lint::<L>`: skip when the configured level is `Allow`,
otherwise invoke the check on nodes of the target kind. -/
def runNodeLintGeneric (level : Config → Severity) (target : SyntaxKind)
    (check : LintContext → Nat → List Diagnostic) (ctx : LintContext) (nid : Nat) :
    List Diagnostic :=
  if level ctx.config = .allow then []
  else if nodeKindAt ctx.tree nid = target then check ctx nid
  else []

/-- `run_token_lint::<L>`: skip when the configured level is `Allow`,
otherwise invoke the check on tokens accepted by the matcher. -/
def runTokenLintGeneric (level : Config → Severity) (matcher : SyntaxKind → Bool)
    (check : LintContext → Nat → List Diagnostic) (ctx : LintContext) (tid : Nat) :
    List Diagnostic :=
  if level ctx.config = .allow then []
  else if matcher (tokenKindAt ctx.tree tid) then check ctx tid
  else []

/-- `run_node_lints`: the node-rule registry (explicit-union only). -/
def runNodeLints (ctx : LintContext) (nid : Nat) : List Diagnostic :=
  runNodeLintGeneric explicitUnionLevel .setOperator explicitUnionCheck ctx nid

/-- `run_token_lints`: the token-rule registry, in order: disallow-names,
then the capitalisation rule. -/
def runTokenLints (ctx : LintContext) (tid : Nat) : List Diagnostic :=
  runTokenLintGeneric disallowLevel disallowMatches disallowCheck ctx tid
    ++ runTokenLintGeneric capLevel capMatches capCheck ctx tid

/-- `tidysql_lints::run`: walk the root's descendants (with tokens) in
source order, dispatching node and token rules. -/
def runLints (dialect : Dialect) (tree : TreeInner) (config : Config) : List Diagnostic :=
  (rootElements tree).flatMap fun element =>
    match element with
    | .node nid => runNodeLints ⟨dialect, tree, config⟩ nid
    | .token tid => runTokenLints ⟨dialect, tree, config⟩ tid

/-! ## Top-level pipeline (`tidysql/src/lib.rs`) -/

/-- A lexer error as surfaced by the external parser: message plus byte
range. -/
structure LexError where
  message : String
  rangeStart : Nat
  rangeEnd : Nat
  deriving DecidableEq, Repr

/-- `ParseError` from `tidysql-syntax`. -/
inductive ParseError where
  | unknownDialect (kind : Dialect)
  | lex (errors : List LexError)
  | parseFailure (description : String) (range : Option (Nat × Nat))
  | unparsable (ranges : List (Nat × Nat))
  | panicked (message : String)
  deriving DecidableEq, Repr

/-- Rust `Debug` rendering of a dialect kind, used in the
`unknown_dialect` message. -/
def dialectDebug : Dialect → String
  | .ansi => "Ansi"
  | .athena => "Athena"
  | .bigquery => "Bigquery"
  | .clickhouse => "Clickhouse"
  | .databricks => "Databricks"
  | .duckdb => "Duckdb"
  | .mysql => "Mysql"
  | .postgres => "Postgres"
  | .redshift => "Redshift"
  | .snowflake => "Snowflake"
  | .sparksql => "Sparksql"
  | .sqlite => "Sqlite"
  | .trino => "Trino"
  | .tsql => "Tsql"

/-- `diagnostics_from_parse_error`. -/
def diagnosticsFromParseError : ParseError → List Diagnostic
  | .unknownDialect kind =>
    [⟨"unknown_dialect", "Dialect not available: " ++ dialectDebug kind, .error, 0, 0,
      Option.none⟩]
  | .lex errors =>
    errors.map fun e => ⟨"lex_error", e.message, .error, e.rangeStart, e.rangeEnd, Option.none⟩
  | .parseFailure description range =>
    [⟨"parse_error", description, .error, (range.getD (0, 0)).1, (range.getD (0, 0)).2,
      Option.none⟩]
  | .unparsable ranges =>
    ranges.map fun r => ⟨"unparsable", "Unparsable section.", .error, r.1, r.2, Option.none⟩
  | .panicked message => [⟨"parser_panic", message, .error, 0, 0, Option.none⟩]

/-- `check_with_dialect`, parameterised by the outcome of the external
`parse(source, dialect)` call: on success run the lint dispatcher, on
failure lower the parse error to diagnostics. -/
def checkWithDialect (parseResult : Except ParseError TreeInner) (dialect : Dialect)
    (config : Config) : List Diagnostic :=
  match parseResult with
  | .ok tree => runLints dialect tree config
  | .error e => diagnosticsFromParseError e

/-! ## Concrete trees

Inputs used to instantiate the claims.  The underlying dialect parser is an
external collaborator (out of scope, §1 of the spec); the event streams it
emits for the concrete inputs are therefore modelled from the spec and fed
through the embedded builder. -/

/-- Shorthand for a parser token with ASCII raw text. -/
def parserTok (k : SyntaxKind) (s : String) : ParserToken := ⟨k, asciiBytes s⟩

/-- The source of scenario S3. -/
def exTextUnion : Str := asciiBytes "select 1 union select 2"

/-- Modelled from the spec: the event stream the external parser emits for
`"select 1 union select 2"` — a root `File` containing a statement for
`select 1`, a `SetOperator` node holding the `union` keyword token, and a
statement for `select 2`, with whitespace lexed as trivia tokens. -/
def exEventsUnion : List Event :=
  [ .enterNode .file 0
  , .enterNode .statement 0
  , .token (parserTok .keyword "select")
  , .token (parserTok .whitespace " ")
  , .token (parserTok .numericLiteral "1")
  , .token (parserTok .whitespace " ")
  , .exitNode .statement
  , .enterNode .setOperator 0
  , .token (parserTok .keyword "union")
  , .exitNode .setOperator
  , .token (parserTok .whitespace " ")
  , .enterNode .statement 0
  , .token (parserTok .keyword "select")
  , .token (parserTok .whitespace " ")
  , .token (parserTok .numericLiteral "2")
  , .exitNode .statement
  , .exitNode .file ]

/-- The tree the builder produces for scenario S3 (the accompanying
theorems check `buildTree exTextUnion exEventsUnion = some exTreeUnion`). -/
def exTreeUnion : TreeInner :=
  (buildTree exTextUnion exEventsUnion).getD ⟨[], [], [], []⟩

/-- An event stream containing a meta token (`Indent`) after a keyword. -/
def exEventsMeta : List Event :=
  [ .enterNode .file 0
  , .token (parserTok .keyword "select")
  , .token (parserTok .indent "")
  , .exitNode .file ]

/-- The tree built from `exEventsMeta`. -/
def exTreeMeta : TreeInner :=
  (buildTree (asciiBytes "select") exEventsMeta).getD ⟨[], [], [], []⟩

/-- An event stream with whitespace trivia between two significant
tokens (`select a`). -/
def exEventsWs : List Event :=
  [ .enterNode .file 0
  , .token (parserTok .keyword "select")
  , .token (parserTok .whitespace " ")
  , .token (parserTok .identifier "a")
  , .exitNode .file ]

/-- The tree built from `exEventsWs`: tokens are the sentinel, `select`
ending at 6, the whitespace ending at 7 (trailing trivia of `select`), and
`a` ending at 8. -/
def exTreeWs : TreeInner :=
  (buildTree (asciiBytes "select a") exEventsWs).getD ⟨[], [], [], []⟩

/-- A single-keyword tree (`select`), used to instantiate rule-level
claims. -/
def exTreeKw : TreeInner :=
  (buildTree (asciiBytes "select")
      [.enterNode .file 0, .token (parserTok .keyword "select"), .exitNode .file]).getD
    ⟨[], [], [], []⟩

/-- A two-keyword tree `SELECT from` (one all-upper, one all-lower
keyword), used to instantiate the policy-inference claim. -/
def exTreeTwoKw : TreeInner :=
  (buildTree (asciiBytes "SELECT from")
      [.enterNode .file 0, .token (parserTok .keyword "SELECT"),
       .token (parserTok .whitespace " "), .token (parserTok .keyword "from"),
       .exitNode .file]).getD
    ⟨[], [], [], []⟩

/-! # Helper lemmas -/

theorem le_of_isCharBoundary {s : Str} {i : Nat} (h : isCharBoundary s i = true) :
    i ≤ s.length := by
  unfold isCharBoundary at h
  by_cases h0 : i = 0
  · omega
  · simp only [h0, if_false] at h
    cases hg : s.get? i with
    | none =>
      rw [hg] at h
      simp only [beq_iff_eq] at h
      omega
    | some b =>
      have := (List.get?_eq_some.mp hg).1
      omega

/-! # The claims -/

/-! ## C6 — the edit applicator matches its specification

A second definition, written from the words of the specification (§4.7 /
claim C6), to be compared with the translated implementation
`applyEdits`. -/

/-- Modelled from the spec's words: walking the stably-sorted edits left to
right with a cursor, each edit fails with `Overlap` if its start is below
the cursor, `OutOfBounds` if its end exceeds the text length,
`InvalidBoundary` if either endpoint is not a UTF-8 boundary, and otherwise
contributes the unedited text up to its start followed by its replacement,
the cursor advancing to its end; the remaining tail is appended at the
end. -/
def applyEditsSpecGo (text : Str) : List TextEdit → Nat → Except EditError Str
  | [], cursor => .ok (text.drop cursor)
  | e :: rest, cursor =>
    if e.start < cursor then .error .overlap
    else if text.length < e.endOff then .error .outOfBounds
    else if !isCharBoundary text e.start || !isCharBoundary text e.endOff then
      .error .invalidBoundary
    else
      (applyEditsSpecGo text rest e.endOff).map
        fun tail => sliceStr text cursor e.start ++ e.replacement ++ tail

/-- Modelled from the spec's words: `apply_edits` on an empty list returns
the text unchanged, and otherwise processes the stably-sorted edits from
cursor 0. -/
def applyEditsSpec (text : Str) (edits : List TextEdit) : Except EditError Str :=
  if edits.isEmpty then .ok text
  else applyEditsSpecGo text (sortByStart edits) 0

theorem applyGo_eq_specGo (text : Str) (edits : List TextEdit) :
    ∀ (cursor : Nat) (out : Str),
      applyGo text edits cursor out = (applyEditsSpecGo text edits cursor).map (out ++ ·) := by
  induction edits with
  | nil => intro cursor out; simp [applyGo, applyEditsSpecGo, Except.map]
  | cons e rest ih =>
    intro cursor out
    simp only [applyGo, applyEditsSpecGo]
    by_cases h1 : e.start < cursor
    · simp [h1, Except.map]
    · by_cases h2 : text.length < e.endOff
      · simp [h1, h2, Except.map]
      · by_cases h3 : (!isCharBoundary text e.start || !isCharBoundary text e.endOff) = true
        · simp [h1, h2, h3, Except.map]
        · simp only [h1, h2, h3, if_false, Bool.false_eq_true]
          rw [ih]
          cases applyEditsSpecGo text rest e.endOff with
          | error err => simp [Except.map]
          | ok tail => simp [Except.map, List.append_assoc]

/-- C6: `apply_edits(text, [])` returns `text` unchanged, and on a
non-empty edit list `apply_edits` behaves exactly as the specification
describes — after a stable sort by range start, each edit fails with
`Overlap` when its start is below the cursor, `OutOfBounds` when its end
exceeds the text length, `InvalidBoundary` when either endpoint is not a
UTF-8 code-point boundary, and otherwise the output is the unedited text up
to the edit's start followed by the replacement, the cursor advancing to
the edit's end, with the remaining tail appended at the end
(`applyEditsSpec`). -/
theorem apply_edits_matches_description :
    (∀ text : Str, applyEdits text [] = .ok text) ∧
      ∀ (text : Str) (edits : List TextEdit), applyEdits text edits = applyEditsSpec text edits := by
  constructor
  · intro text; simp [applyEdits]
  · intro text edits
    unfold applyEdits applyEditsSpec
    by_cases h : edits.isEmpty
    · simp [h]
    · simp only [h, if_false, Bool.false_eq_true]
      rw [applyGo_eq_specGo]
      cases applyEditsSpecGo text (sortByStart edits) 0 with
      | error err => simp [Except.map]
      | ok s => simp [Except.map]

/-! ## C1 — zero-length edits at the same offset -/

/-- C1 counterexample: `apply_edits("ab", [insert(1, "X"), insert(1, "Y")])`
contains two zero-length edits at the same offset yet returns
`Ok("aXYb")`, not `Err(Overlap)` — the `start < cursor` check does not fire
when `start = cursor`. -/
theorem two_zero_length_edits_ok :
    applyEdits (asciiBytes "ab")
        [TextEdit.insertAt 1 (asciiBytes "X"), TextEdit.insertAt 1 (asciiBytes "Y")] =
      .ok (asciiBytes "aXYb") := by decide

/-- C1 amended: the applicator accepts any number of zero-length edits at
the same (in-bounds, boundary) offset; two zero-length edits at offset `o`
are both applied, their replacements inserted in order. -/
theorem two_zero_length_edits_applied (text : Str) (o : Nat) (a b : Str)
    (h : isCharBoundary text o = true) :
    applyEdits text [TextEdit.insertAt o a, TextEdit.insertAt o b] =
      .ok (text.take o ++ a ++ b ++ text.drop o) := by
  have hlen : o ≤ text.length := le_of_isCharBoundary h
  have hsort :
      sortByStart [TextEdit.insertAt o a, TextEdit.insertAt o b] =
        [TextEdit.insertAt o a, TextEdit.insertAt o b] := by
    simp [sortByStart, insertByStart, TextEdit.insertAt, TextEdit.replace]
  simp only [applyEdits, List.isEmpty_cons, if_false, Bool.false_eq_true, hsort]
  simp [applyGo, TextEdit.insertAt, TextEdit.replace, h, Nat.not_lt.mpr hlen, sliceStr]

/-- Witness for `two_zero_length_edits_applied` at `("ab", 1, "X", "Y")`. -/
theorem two_zero_length_edits_applied_witness :
    applyEdits (asciiBytes "ab")
        [TextEdit.insertAt 1 (asciiBytes "X"), TextEdit.insertAt 1 (asciiBytes "Y")] =
      .ok ((asciiBytes "ab").take 1 ++ asciiBytes "X" ++ asciiBytes "Y" ++
        (asciiBytes "ab").drop 1) :=
  two_zero_length_edits_applied (asciiBytes "ab") 1 (asciiBytes "X") (asciiBytes "Y") (by decide)

/-! ## C2 — the capitalisation rule's diagnostic -/

/-- C2: on a keyword token that is not on the rule's skip list and violates
the resolved capitalisation policy, the capitalisation rule emits exactly
one diagnostic with code `inconsistent_capitalisation`, message
`"Keywords must be <policy-description>."` for the resolved policy, and a
fix containing a single `TextEdit` replacing exactly the token's range with
the canonical form (`apply_case`) of the resolved policy. -/
theorem cap_rule_emits_described_diagnostic (ctx : LintContext) (tid : Nat)
    (hign : isIgnored (tokenTextAt ctx.tree tid)
        ctx.config.lints.inconsistentCapitalisation.options = false)
    (hviol : isCorrectCase (tokenTextAt ctx.tree tid)
        (resolvePolicy ctx.config.lints.inconsistentCapitalisation.options.capitalisationPolicy
          ctx.tree) = false) :
    capCheck ctx tid =
      [{ code := "inconsistent_capitalisation"
         message := "Keywords must be " ++
           policyDescription
             (resolvePolicy
               ctx.config.lints.inconsistentCapitalisation.options.capitalisationPolicy
               ctx.tree) ++ "."
         severity := ctx.config.lints.inconsistentCapitalisation.level
         rangeStart := tokenStartAt ctx.tree tid
         rangeEnd := tokenEndAt ctx.tree tid
         fix := some (Fix.single "Fix keyword capitalisation"
           (TextEdit.replace (tokenStartAt ctx.tree tid) (tokenEndAt ctx.tree tid)
             (applyCase (tokenTextAt ctx.tree tid)
               (resolvePolicy
                 ctx.config.lints.inconsistentCapitalisation.options.capitalisationPolicy
                 ctx.tree)))) }] := by
  simp [capCheck, hign, hviol]

/-- A configuration with the capitalisation rule at level `warn` and policy
`Upper`. -/
def cfgUpperWarn : Config :=
  { Config.default with
    lints := { Lints.default with inconsistentCapitalisation := ⟨.warn, ⟨.upper, [], []⟩⟩ } }

/-- Witness for `cap_rule_emits_described_diagnostic` on the keyword
`select` under policy `Upper`. -/
theorem cap_rule_emits_described_diagnostic_witness :
    capCheck ⟨.ansi, exTreeKw, cfgUpperWarn⟩ 1 =
      [{ code := "inconsistent_capitalisation"
         message := "Keywords must be uppercase."
         severity := .warn
         rangeStart := 0
         rangeEnd := 6
         fix := some (Fix.single "Fix keyword capitalisation"
           (TextEdit.replace 0 6 (asciiBytes "SELECT"))) }] := by
  have h := cap_rule_emits_described_diagnostic ⟨.ansi, exTreeKw, cfgUpperWarn⟩ 1
    (by decide) (by decide)
  rw [h]
  decide

/-! ## C8 — document-wide policy inference -/

theorem not_allLower_of_allUpper {s : Str} (halpha : s.any isAsciiAlphaByte = true)
    (hupper : isAllUpper s = true) : isAllLower s = false := by
  rcases List.any_eq_true.mp halpha with ⟨b, hb, hba⟩
  have hnl : isAsciiLowerByte b = false := by
    by_contra hc
    have : s.any isAsciiLowerByte = true :=
      List.any_eq_true.mpr ⟨b, hb, by simpa using hc⟩
    simp [isAllUpper, this] at hupper
  have hup : isAsciiUpperByte b = true := by
    unfold isAsciiAlphaByte at hba
    rcases Bool.or_eq_true_iff.mp hba with h | h
    · exact h
    · rw [h] at hnl; cases hnl
  have : s.any isAsciiUpperByte = true := List.any_eq_true.mpr ⟨b, hb, hup⟩
  simp [isAllLower, this]

theorem keyword_vote_fold (l : List Str) :
    ∀ (u v : Nat),
      l.foldl
        (fun (p : Nat × Nat) text =>
          if isAllUpper text then (p.1 + 1, p.2)
          else if isAllLower text then (p.1, p.2 + 1)
          else p)
        (u, v) =
      (u + l.countP (fun s => isAllUpper s),
        v + l.countP (fun s => !isAllUpper s && isAllLower s)) := by
  induction l with
  | nil => simp
  | cons s t ih =>
    intro u v
    simp only [List.foldl_cons, List.countP_cons]
    by_cases hu : isAllUpper s = true
    · simp only [hu, if_true, ih, Bool.not_true, Bool.false_and]
      simp
      omega
    · simp only [Bool.not_eq_true] at hu
      by_cases hl : isAllLower s = true
      · simp only [hu, hl, Bool.false_eq_true, if_false, if_true, ih, Bool.not_false,
          Bool.true_and]
        simp
        omega
      · simp only [Bool.not_eq_true] at hl
        simp only [hu, hl, Bool.false_eq_true, if_false, ih, Bool.and_false]
        simp

theorem countP_mixed_eq_countP_lower (l : List Str)
    (halpha : ∀ s ∈ l, s.any isAsciiAlphaByte = true) :
    l.countP (fun s => !isAllUpper s && isAllLower s) = l.countP (fun s => isAllLower s) := by
  apply List.countP_congr
  intro s hs
  by_cases hu : isAllUpper s = true
  · have := not_allLower_of_allUpper (halpha s hs) hu
    simp [hu, this]
  · simp only [Bool.not_eq_true] at hu
    simp [hu]

/-- C8: when the policy is `Consistent` the effective policy is inferred
document-wide over the tree's keyword tokens: entirely-uppercase keywords
add to the Upper count, entirely-lowercase ones to the Lower count,
mixed-case keywords to neither, and the result is `Upper` when the Upper
count is at least the Lower count, else `Lower`.  (Keyword texts contain at
least one ASCII letter, so "entirely uppercase" and "entirely lowercase"
are mutually exclusive.) -/
theorem infer_policy_majority (tree : TreeInner)
    (halpha : ∀ s ∈ keywordTexts tree, s.any isAsciiAlphaByte = true) :
    resolvePolicy .consistent tree =
      if (keywordTexts tree).countP (fun s => isAllLower s) ≤
          (keywordTexts tree).countP (fun s => isAllUpper s) then
        CapitalisationPolicy.upper
      else CapitalisationPolicy.lower := by
  show inferPolicy tree = _
  unfold inferPolicy
  rw [keyword_vote_fold (keywordTexts tree) 0 0,
    countP_mixed_eq_countP_lower (keywordTexts tree) halpha]
  simp

/-- Witness for `infer_policy_majority` on the tree for `SELECT from`: a
1–1 tie resolves to `Upper`. -/
theorem infer_policy_majority_witness :
    resolvePolicy .consistent exTreeTwoKw = .upper := by
  have h := infer_policy_majority exTreeTwoKw (by decide)
  rw [h]
  decide

/-! ## C10 — default configuration gates the capitalisation rule -/

/-- C10: in `Config::default()` the disallow-names and explicit-union
entries have level `Warn` and the capitalisation entry has level `Allow`,
so the token-lint dispatcher returns no diagnostics for the capitalisation
rule under the default configuration — whatever its check function would
do, it is never invoked. -/
theorem default_config_gates_capitalisation :
    Config.default.lints.disallowNames.level = Severity.warn ∧
    Config.default.lints.explicitUnion.level = Severity.warn ∧
    Config.default.lints.inconsistentCapitalisation.level = Severity.allow ∧
    ∀ (check : LintContext → Nat → List Diagnostic) (d : Dialect) (tree : TreeInner) (tid : Nat),
      runTokenLintGeneric capLevel capMatches check ⟨d, tree, Config.default⟩ tid = [] := by
  refine ⟨rfl, rfl, rfl, ?_⟩
  intro check d tree tid
  simp [runTokenLintGeneric, capLevel, Config.default, Lints.default]

/-! ## C7 — lowering of parse failures -/

/-- C7: when parsing fails, `check_with_config` returns exactly the
diagnostics lowered from the parse error (no lint rule contributes);
every lowered diagnostic has severity `Error`; and the codes are
`unknown_dialect` (one), `lex_error` (one per lex error), `parse_error`
(exactly one), `unparsable` (one per unparsable range, with message
`"Unparsable section."`), and `parser_panic` (one). -/
theorem parse_failure_diagnostics :
    (∀ (e : ParseError) (d : Dialect) (c : Config),
        checkWithDialect (.error e) d c = diagnosticsFromParseError e) ∧
    (∀ (e : ParseError), ∀ diag ∈ diagnosticsFromParseError e, diag.severity = .error) ∧
    (∀ kind, (diagnosticsFromParseError (.unknownDialect kind)).map Diagnostic.code =
        ["unknown_dialect"]) ∧
    (∀ errors, (diagnosticsFromParseError (.lex errors)).map Diagnostic.code =
        List.replicate errors.length "lex_error") ∧
    (∀ description range,
        (diagnosticsFromParseError (.parseFailure description range)).map Diagnostic.code =
          ["parse_error"]) ∧
    (∀ ranges, diagnosticsFromParseError (.unparsable ranges) =
        ranges.map fun r =>
          ⟨"unparsable", "Unparsable section.", .error, r.1, r.2, Option.none⟩) ∧
    (∀ message, (diagnosticsFromParseError (.panicked message)).map Diagnostic.code =
        ["parser_panic"]) := by
  refine ⟨fun e d c => rfl, ?_, fun kind => rfl, ?_, fun description range => rfl,
    fun ranges => rfl, fun message => rfl⟩
  · intro e diag hmem
    cases e with
    | unknownDialect kind => simp [diagnosticsFromParseError] at hmem; simp [hmem]
    | lex errors =>
      simp only [diagnosticsFromParseError, List.mem_map] at hmem
      rcases hmem with ⟨err, _, rfl⟩
      rfl
    | parseFailure description range =>
      simp [diagnosticsFromParseError] at hmem; simp [hmem]
    | unparsable ranges =>
      simp only [diagnosticsFromParseError, List.mem_map] at hmem
      rcases hmem with ⟨r, _, rfl⟩
      rfl
    | panicked message =>
      simp [diagnosticsFromParseError] at hmem; simp [hmem]
  · intro errors
    simp [diagnosticsFromParseError, List.map_map]
    induction errors with
    | nil => rfl
    | cons e t ih => simp [List.replicate_succ, ih]

/-- Witness for `parse_failure_diagnostics`: an `Unparsable` parse failure
over the range `0..3` is lowered to a single `unparsable` diagnostic with
the fixed message and severity `Error`, and the severity conjunct applies
to that diagnostic. -/
theorem parse_failure_diagnostics_witness :
    checkWithDialect (.error (.unparsable [(0, 3)])) .ansi Config.default =
      [⟨"unparsable", "Unparsable section.", Severity.error, 0, 3, Option.none⟩] ∧
    (⟨"unparsable", "Unparsable section.", Severity.error, 0, 3, Option.none⟩ :
        Diagnostic).severity = Severity.error := by
  constructor
  · rw [parse_failure_diagnostics.1 (.unparsable [(0, 3)]) .ansi Config.default]
    decide
  · exact parse_failure_diagnostics.2.1 (.unparsable [(0, 3)]) _ (by decide)

/-! ## C3 — the explicit-union scenario on `select 1 union select 2` -/

/-- The diagnostic actually emitted for scenario S3: the `union` token is
entirely lowercase, so the fix inserts `" distinct"`. -/
def unionDiagnostic : Diagnostic :=
  ⟨"explicit_union", "Use UNION DISTINCT or UNION ALL.", .warn, 9, 14,
    some (Fix.single "Add DISTINCT to UNION" (TextEdit.insertAt 14 (asciiBytes " distinct")))⟩

/-- C3 counterexample: on `"select 1 union select 2"` (dialect ANSI,
`explicit_union` at `warn` — the default level) exactly one `explicit_union`
diagnostic is emitted on the `union` token, but its fix inserts
`" distinct"`, which differs from the claimed `" DISTINCT"`, and applying
the fix yields `"select 1 union distinct select 2"`, which differs from the
claimed `"select 1 union DISTINCT select 2"`. -/
theorem explicit_union_scenario_lowercase :
    buildTree exTextUnion exEventsUnion = some exTreeUnion ∧
    runLints .ansi exTreeUnion Config.default = [unionDiagnostic] ∧
    unionDiagnostic.fix =
      some (Fix.single "Add DISTINCT to UNION" (TextEdit.insertAt 14 (asciiBytes " distinct"))) ∧
    asciiBytes " distinct" ≠ asciiBytes " DISTINCT" ∧
    applyEdits exTextUnion [TextEdit.insertAt 14 (asciiBytes " distinct")] =
      .ok (asciiBytes "select 1 union distinct select 2") ∧
    asciiBytes "select 1 union distinct select 2" ≠
      asciiBytes "select 1 union DISTINCT select 2" := by
  decide

/-- C3 amended: for `"select 1 union select 2"` under dialect ANSI with
`explicit_union` at level `warn`, exactly one diagnostic with code
`explicit_union` is emitted on the `union` token (bytes 9–14), its fix
inserts `" distinct"` (lowercase, because the token text contains no ASCII
uppercase letter) at the end of the token, and applying the fix yields
`"select 1 union distinct select 2"`. -/
theorem explicit_union_scenario :
    buildTree exTextUnion exEventsUnion = some exTreeUnion ∧
    tokenTextAt exTreeUnion 5 = asciiBytes "union" ∧
    tokenStartAt exTreeUnion 5 = 9 ∧
    tokenEndAt exTreeUnion 5 = 14 ∧
    runLints .ansi exTreeUnion Config.default = [unionDiagnostic] ∧
    applyEdits exTextUnion [TextEdit.insertAt 14 (asciiBytes " distinct")] =
      .ok (asciiBytes "select 1 union distinct select 2") := by
  decide

/-! ## C9 — the explicit-union rule: dialect gate and fix shape -/

theorem toUpper_toLower (b : Nat) : toUpperByte (toLowerByte b) = toUpperByte b := by
  simp only [toLowerByte, toUpperByte, isAsciiUpperByte, isAsciiLowerByte,
    Bool.and_eq_true, decide_eq_true_eq]
  split_ifs <;> omega

theorem toUpperStr_of_eqIgnoreAsciiCase {a b : Str} (h : eqIgnoreAsciiCase a b = true) :
    toUpperStr a = toUpperStr b := by
  have h' : a.map toLowerByte = b.map toLowerByte := by
    simpa [eqIgnoreAsciiCase, toLowerStr] using h
  have hcomp : toUpperByte ∘ toLowerByte = toUpperByte := funext toUpper_toLower
  calc toUpperStr a = a.map toUpperByte := rfl
    _ = a.map (toUpperByte ∘ toLowerByte) := by rw [hcomp]
    _ = (a.map toLowerByte).map toUpperByte := (List.map_map _ _ _).symm
    _ = (b.map toLowerByte).map toUpperByte := by rw [h']
    _ = b.map (toUpperByte ∘ toLowerByte) := List.map_map _ _ _
    _ = b.map toUpperByte := by rw [hcomp]
    _ = toUpperStr b := rfl

theorem sliceStr_infix (s : Str) {a₁ a₂ b₁ b₂ : Nat} (h₁ : a₁ ≤ a₂) (h₂ : a₂ ≤ b₁)
    (h₃ : b₂ ≤ b₁) : sliceStr s a₂ b₂ <:+: sliceStr s a₁ b₁ := by
  have hdrop : (sliceStr s a₁ b₁).drop (a₂ - a₁) = (s.drop a₂).take (b₁ - a₂) := by
    unfold sliceStr
    rw [List.drop_take, List.drop_drop]
    congr 1
    · omega
    · congr 1; omega
  have hpre : sliceStr s a₂ b₂ <+: (s.drop a₂).take (b₁ - a₂) := by
    unfold sliceStr
    have heq : (s.drop a₂).take (b₂ - a₂) = ((s.drop a₂).take (b₁ - a₂)).take (b₂ - a₂) := by
      rw [List.take_take]
      congr 1
      omega
    rw [heq]
    exact List.take_prefix _ _
  rw [← hdrop] at hpre
  exact hpre.isInfix.trans (List.drop_suffix _ _).isInfix

/-- C9: the explicit-union rule is a no-op whenever the dialect is outside
{ANSI, BigQuery, ClickHouse, Databricks, MySQL, Redshift, Snowflake,
Trino}; and within those dialects, on a `SetOperator` node containing a
`union` token (with the token's byte range inside the node's) whose
uppercased text contains neither `"ALL"` nor `"DISTINCT"`, the emitted
diagnostic's fix is titled `"Add DISTINCT to UNION"` and its single edit
inserts `" distinct"` at the token's end when the token text contains no
ASCII-uppercase letter, otherwise `" DISTINCT"`. -/
theorem explicit_union_dialects_and_fix :
    (∀ (ctx : LintContext) (nid : Nat),
        dialectSupportsUnion ctx.dialect = false → explicitUnionCheck ctx nid = []) ∧
    (∀ (ctx : LintContext) (nid : Nat) (n : Node) (tid : Nat),
        ctx.tree.nodes.get? nid = some n →
        n.kind = .setOperator →
        dialectSupportsUnion ctx.dialect = true →
        unionTokenOf ctx.tree n = some tid →
        nodeStartOff ctx.tree n ≤ tokenStartAt ctx.tree tid →
        tokenStartAt ctx.tree tid ≤ nodeEndOff ctx.tree n →
        tokenEndAt ctx.tree tid ≤ nodeEndOff ctx.tree n →
        containsStr (toUpperStr (nodeText ctx.tree n)) (asciiBytes "ALL") = false →
        containsStr (toUpperStr (nodeText ctx.tree n)) (asciiBytes "DISTINCT") = false →
        explicitUnionCheck ctx nid =
          [{ code := "explicit_union"
             message := "Use UNION DISTINCT or UNION ALL."
             severity := ctx.config.lints.explicitUnion.level
             rangeStart := tokenStartAt ctx.tree tid
             rangeEnd := tokenEndAt ctx.tree tid
             fix := some (Fix.single "Add DISTINCT to UNION"
               (TextEdit.insertAt (tokenEndAt ctx.tree tid)
                 (if (tokenTextAt ctx.tree tid).any isAsciiUpperByte then asciiBytes " DISTINCT"
                  else asciiBytes " distinct"))) }]) := by
  constructor
  · intro ctx nid hdial
    unfold explicitUnionCheck
    cases hg : ctx.tree.nodes.get? nid with
    | none => rfl
    | some n => simp [hdial]
  · intro ctx nid n tid hn hkind hdial hu hns hts hte hall hdist
    have hu' : List.find?
        (fun t => eqIgnoreAsciiCase (tokenTextAt ctx.tree t) (asciiBytes "union"))
        ((childRefs ctx.tree n).filterMap fun ref =>
          match ref with
          | .token t => some t
          | .node _ => Option.none) = some tid := hu
    have hpred0 := List.find?_some hu'
    have hpred : eqIgnoreAsciiCase (tokenTextAt ctx.tree tid) (asciiBytes "union") = true :=
      hpred0
    have hinfix : tokenTextAt ctx.tree tid <:+: nodeText ctx.tree n := by
      unfold tokenTextAt nodeText
      exact sliceStr_infix _ hns hts hte
    have hupper : toUpperStr (tokenTextAt ctx.tree tid) = asciiBytes "UNION" := by
      rw [toUpperStr_of_eqIgnoreAsciiCase hpred]
      decide
    have hcontains : containsStr (toUpperStr (nodeText ctx.tree n)) (asciiBytes "UNION") =
        true := by
      have h2 := List.IsInfix.map toUpperByte hinfix
      rw [show (tokenTextAt ctx.tree tid).map toUpperByte = asciiBytes "UNION" from hupper]
        at h2
      simpa [containsStr, toUpperStr] using h2
    unfold explicitUnionCheck
    rw [hn]
    by_cases hany : (tokenTextAt ctx.tree tid).any isAsciiUpperByte = true <;>
      simp [hdial, hu, hcontains, hall, hdist, buildFix, hany]

/-- Witness for `explicit_union_dialects_and_fix`: on the S3 tree, the
Postgres dialect suppresses the rule, and the ANSI dialect yields the
lowercase-fix diagnostic on the `union` token. -/
theorem explicit_union_dialects_and_fix_witness :
    explicitUnionCheck ⟨.postgres, exTreeUnion, Config.default⟩ 2 = [] ∧
    explicitUnionCheck ⟨.ansi, exTreeUnion, Config.default⟩ 2 = [unionDiagnostic] := by
  constructor
  · exact explicit_union_dialects_and_fix.1 ⟨.postgres, exTreeUnion, Config.default⟩ 2
      (by decide)
  · have h := explicit_union_dialects_and_fix.2 ⟨.ansi, exTreeUnion, Config.default⟩ 2
      ⟨some 0, 2, 3, .setOperator, 5, 5⟩ 5 (by decide) (by decide) (by decide) (by decide)
      (by decide) (by decide) (by decide) (by decide) (by decide)
    rw [h]
    decide

/-! ## C4 — which tokens appear as node children

Invariant machinery for the builder: every token reference recorded in a
child list points at a non-trivia token.  (Meta tokens, by contrast, are
emitted through the same path as significant tokens and *do* become
children — see the counterexample below.) -/

/-- All token references in `refs` point at in-bounds, non-trivia
tokens. -/
def childTokOk (tokens : List Token) (refs : List NodeOrTokenRef) : Prop :=
  ∀ tid, NodeOrTokenRef.token tid ∈ refs →
    ∃ tok, tokens.get? tid = some tok ∧ isTriviaKind tok.kind = false

/-- The builder invariant: child token references in the flushed pool and
in every open frame are non-trivia, and a pending token is never
trivia. -/
def BuilderInv (b : Builder) : Prop :=
  childTokOk b.tokens b.nodeChildren ∧
  (∀ f ∈ b.opened, childTokOk b.tokens f.children) ∧
  ∀ p, b.trivia.pending = some p → isTriviaKind p.kind = false

theorem childTokOk_append_tokens {tokens ext : List Token} {refs : List NodeOrTokenRef}
    (h : childTokOk tokens refs) : childTokOk (tokens ++ ext) refs := by
  intro tid hm
  rcases h tid hm with ⟨tok, hg, ht⟩
  have hlt : tid < tokens.length := (List.get?_eq_some.mp hg).1
  exact ⟨tok, by rw [List.get?_append hlt]; exact hg, ht⟩

theorem childTokOk_append_refs {tokens : List Token} {refs₁ refs₂ : List NodeOrTokenRef}
    (h₁ : childTokOk tokens refs₁) (h₂ : childTokOk tokens refs₂) :
    childTokOk tokens (refs₁ ++ refs₂) := by
  intro tid hm
  rcases List.mem_append.mp hm with h | h
  · exact h₁ _ h
  · exact h₂ _ h

theorem foldl_pushTok (parent : Nat) (c : AttachedTrivia) :
    ∀ (l : List (SyntaxKind × Nat)) (b : Builder),
      (l.foldl (fun acc p => pushTok acc parent p.1 c p.2) b).nodes = b.nodes ∧
      (l.foldl (fun acc p => pushTok acc parent p.1 c p.2) b).nodeChildren = b.nodeChildren ∧
      (l.foldl (fun acc p => pushTok acc parent p.1 c p.2) b).opened = b.opened ∧
      (l.foldl (fun acc p => pushTok acc parent p.1 c p.2) b).trivia = b.trivia ∧
      ∃ ext : List Token,
        (l.foldl (fun acc p => pushTok acc parent p.1 c p.2) b).tokens = b.tokens ++ ext := by
  intro l
  induction l with
  | nil => intro b; exact ⟨rfl, rfl, rfl, rfl, [], by simp⟩
  | cons p t ih =>
    intro b
    simp only [List.foldl_cons]
    obtain ⟨h1, h2, h3, h4, ext, htok⟩ := ih (pushTok b parent p.1 c p.2)
    refine ⟨h1, h2, h3, h4, ?_⟩
    refine ⟨⟨p.1, c, b.textCursor + p.2, parent⟩ :: ext, ?_⟩
    rw [htok]
    simp [pushTok]

theorem emit_inv {b b' : Builder} {leading trailing : List (SyntaxKind × Nat)}
    {kind : SyntaxKind} {tokenLen : Nat}
    (hkind : isTriviaKind kind = false) (hinv : BuilderInv b)
    (hemit : emitTokenWithTrivia b leading kind tokenLen trailing = some b') :
    BuilderInv b' ∧ b'.trivia = b.trivia := by
  unfold emitTokenWithTrivia at hemit
  cases hopen : b.opened with
  | nil => rw [hopen] at hemit; cases hemit
  | cons top rest =>
    rw [hopen] at hemit
    simp only [Option.some.injEq] at hemit
    obtain ⟨g1, g2, g3, g4, ext1, htok1⟩ :=
      foldl_pushTok top.id ⟨false, false, 0⟩ leading b
    set b1 := leading.foldl (fun acc p => pushTok acc top.id p.1 ⟨false, false, 0⟩ p.2) b
      with hb1
    set mainTok : Token :=
      ⟨kind, ⟨!leading.isEmpty, !trailing.isEmpty, leading.length⟩, b1.textCursor + tokenLen,
        top.id⟩ with hmain
    have hb2tok : (pushTok b1 top.id kind
        ⟨!leading.isEmpty, !trailing.isEmpty, leading.length⟩ tokenLen).tokens =
        b1.tokens ++ [mainTok] := by
      simp [pushTok, hmain]
    obtain ⟨k1, k2, k3, k4, ext3, htok3⟩ :=
      foldl_pushTok top.id ⟨false, false, trailing.length⟩ trailing
        (pushTok b1 top.id kind ⟨!leading.isEmpty, !trailing.isEmpty, leading.length⟩ tokenLen)
    set b3 := trailing.foldl
      (fun acc p => pushTok acc top.id p.1 ⟨false, false, trailing.length⟩ p.2)
      (pushTok b1 top.id kind ⟨!leading.isEmpty, !trailing.isEmpty, leading.length⟩ tokenLen)
      with hb3
    have hb3tokens : b3.tokens = b.tokens ++ ext1 ++ [mainTok] ++ ext3 := by
      rw [htok3, hb2tok, htok1]
    have hb3nodes : b3.nodes = b.nodes := by rw [k1]; simp [pushTok]; exact g1
    have hb3children : b3.nodeChildren = b.nodeChildren := by
      rw [k2]; simp [pushTok]; exact g2
    have hb3opened : b3.opened = b.opened := by rw [k3]; simp [pushTok]; exact g3
    have hb3trivia : b3.trivia = b.trivia := by rw [k4]; simp [pushTok]; exact g4
    have hlen : b1.tokens.length = (b.tokens ++ ext1).length := by rw [htok1]
    have htokenId : b3.tokens.get? b1.tokens.length = some mainTok := by
      rw [hb3tokens, hlen]
      have h1 : (b.tokens ++ ext1).length < ((b.tokens ++ ext1) ++ [mainTok]).length := by
        simp
      rw [show b.tokens ++ ext1 ++ [mainTok] ++ ext3 =
        ((b.tokens ++ ext1) ++ [mainTok]) ++ ext3 from rfl]
      rw [List.get?_append h1]
      exact List.get?_concat_length _ _
    subst hemit
    constructor
    · refine ⟨?_, ?_, ?_⟩
      · show childTokOk b3.tokens b3.nodeChildren
        rw [hb3tokens, hb3children, List.append_assoc, List.append_assoc]
        exact childTokOk_append_tokens hinv.1
      · intro f hf
        simp only [List.mem_cons] at hf
        rcases hf with rfl | hf
        · show childTokOk b3.tokens (top.children ++ [NodeOrTokenRef.token b1.tokens.length])
          apply childTokOk_append_refs
          · rw [hb3tokens, List.append_assoc, List.append_assoc]
            exact childTokOk_append_tokens (hinv.2.1 top (by rw [hopen]; simp))
          · intro tid hm
            simp only [List.mem_singleton, NodeOrTokenRef.token.injEq] at hm
            subst hm
            exact ⟨mainTok, htokenId, hkind⟩
        · show childTokOk b3.tokens f.children
          rw [hb3tokens, List.append_assoc, List.append_assoc]
          exact childTokOk_append_tokens (hinv.2.1 f (by rw [hopen]; simp [hf]))
      · intro p hp
        rw [show ({ b3 with opened := _ } : Builder).trivia = b3.trivia from rfl,
          hb3trivia] at hp
        exact hinv.2.2 p hp
    · show b3.trivia = b.trivia
      exact hb3trivia

theorem flush_inv {b b' : Builder} (hinv : BuilderInv b) (h : flushPending b = some b') :
    BuilderInv b' := by
  unfold flushPending at h
  cases hpend : b.trivia.pending with
  | none => rw [hpend] at h; simp at h; subst h; exact hinv
  | some p =>
    rw [hpend] at h
    simp only [Option.map_eq_some'] at h
    obtain ⟨be, hemit, rfl⟩ := h
    have hkind := hinv.2.2 p hpend
    obtain ⟨hbe, _⟩ := emit_inv hkind hinv hemit
    refine ⟨hbe.1, hbe.2.1, ?_⟩
    intro q hq
    simp at hq

theorem onToken_inv {b b' : Builder} {pt : ParserToken} (hinv : BuilderInv b)
    (h : onToken b pt = some b') : BuilderInv b' := by
  unfold onToken at h
  by_cases ht : isTriviaKind pt.kind = true
  · rw [if_pos ht] at h
    simp only [Option.some.injEq] at h
    subst h
    refine ⟨hinv.1, hinv.2.1, ?_⟩
    intro p hp
    apply hinv.2.2 p
    by_cases hps : b.trivia.pending.isSome <;> simpa [hps] using hp
  · rw [if_neg ht] at h
    simp only [Bool.not_eq_true] at ht
    by_cases hm : isMetaKind pt.kind = true
    · rw [if_pos hm] at h
      simp only [Option.bind_eq_bind, Option.bind_eq_some] at h
      obtain ⟨bf, hflush, h⟩ := h
      obtain ⟨be, hemit, h⟩ := h
      simp only [Option.some.injEq] at h
      subst h
      have hbf := flush_inv hinv hflush
      obtain ⟨hbe, htr⟩ := emit_inv ht hbf hemit
      refine ⟨hbe.1, hbe.2.1, ?_⟩
      intro p hp
      exact hbe.2.2 p hp
    · rw [if_neg hm] at h
      simp only [Option.bind_eq_bind, Option.bind_eq_some] at h
      obtain ⟨bf, hflush, h⟩ := h
      simp only [Option.some.injEq] at h
      subst h
      have hbf := flush_inv hinv hflush
      refine ⟨hbf.1, hbf.2.1, ?_⟩
      intro p hp
      simp only [Option.some.injEq] at hp
      subst hp
      exact ht

theorem startNode_inv {b : Builder} {kind : SyntaxKind} (hinv : BuilderInv b) :
    BuilderInv (startNodeReserve b kind) := by
  unfold startNodeReserve
  refine ⟨hinv.1, ?_, hinv.2.2⟩
  intro f hf
  simp only [List.mem_cons] at hf
  rcases hf with rfl | hf
  · intro tid hm; simp at hm
  · cases hopen : b.opened with
    | nil => rw [hopen] at hf; simp at hf
    | cons top rest =>
      rw [hopen] at hf
      simp only [List.mem_cons] at hf
      rcases hf with rfl | hf
      · apply childTokOk_append_refs (hinv.2.1 top (by rw [hopen]; simp))
        intro tid hm
        simp at hm
      · exact hinv.2.1 f (by rw [hopen]; simp [hf])

theorem closeTop_inv {b b' : Builder} (hinv : BuilderInv b) (h : closeTopFrame b = some b') :
    BuilderInv b' := by
  unfold closeTopFrame at h
  cases hopen : b.opened with
  | nil => rw [hopen] at h; cases h
  | cons top rest =>
    rw [hopen] at h
    dsimp only at h
    cases hrange : top.tokenRange with
    | none => rw [hrange] at h; cases h
    | some fl =>
      rw [hrange] at h
      cases hnd : b.nodes.get? top.id with
      | none => rw [hnd] at h; cases h
      | some nd =>
        rw [hnd] at h
        simp only [Option.some.injEq] at h
        subst h
        refine ⟨?_, ?_, hinv.2.2⟩
        · exact childTokOk_append_refs hinv.1 (hinv.2.1 top (by rw [hopen]; simp))
        · intro f hf
          cases rest with
          | nil => simp at hf
          | cons p ps =>
            simp only [List.mem_cons] at hf
            rcases hf with rfl | hf
            · exact hinv.2.1 p (by rw [hopen]; simp)
            · exact hinv.2.1 f (by rw [hopen]; simp [hf])

theorem step_inv {b b' : Builder} {ev : Event} (hinv : BuilderInv b) (h : step b ev = some b') :
    BuilderInv b' := by
  cases ev with
  | enterNode kind est =>
    simp only [step, Option.map_eq_some'] at h
    obtain ⟨bf, hflush, rfl⟩ := h
    exact startNode_inv (flush_inv hinv hflush)
  | exitNode kind =>
    simp only [step, Option.bind_eq_bind, Option.bind_eq_some] at h
    obtain ⟨bf, hflush, hclose⟩ := h
    exact closeTop_inv (flush_inv hinv hflush) hclose
  | token pt => exact onToken_inv hinv h

theorem foldlM_step_inv {events : List Event} :
    ∀ {b b' : Builder}, BuilderInv b → events.foldlM step b = some b' → BuilderInv b' := by
  induction events with
  | nil => intro b b' hinv h; simp [List.foldlM] at h; subst h; exact hinv
  | cons e es ih =>
    intro b b' hinv h
    rw [List.foldlM_cons] at h
    simp only [Option.bind_eq_bind, Option.bind_eq_some] at h
    obtain ⟨b1, hstep, hrest⟩ := h
    exact ih (step_inv hinv hstep) hrest

/-- C4 amended: in every tree the builder produces, every token reference
in the child pool (hence in every node's children list) points at a
non-trivia token — whitespace and comment tokens never appear as children.
Meta tokens are not excluded; the counterexample shows one appearing as a
child. -/
theorem builder_children_not_trivia (text : Str) (events : List Event) (tree : TreeInner)
    (h : buildTree text events = some tree) :
    ∀ tid, NodeOrTokenRef.token tid ∈ tree.nodeChildren →
      ∃ tok, tree.tokens.get? tid = some tok ∧ isTriviaKind tok.kind = false := by
  unfold buildTree at h
  simp only [Option.bind_eq_bind, Option.bind_eq_some] at h
  obtain ⟨b, hfold, hfin⟩ := h
  have hinit : BuilderInv (newRootless text) := by
    refine ⟨?_, ?_, ?_⟩
    · intro tid hm; simp [newRootless] at hm
    · intro f hf; simp [newRootless] at hf
    · intro p hp; simp [newRootless] at hp
  have hb := foldlM_step_inv hinit hfold
  unfold finish at hfin
  cases hflush : flushPending b with
  | none => rw [hflush] at hfin; cases hfin
  | some bf =>
    rw [hflush] at hfin
    have hbf := flush_inv hb hflush
    dsimp only [Option.bind_eq_bind] at hfin
    rw [Option.some_bind] at hfin
    cases hopen : bf.opened with
    | nil =>
      rw [hopen] at hfin
      dsimp only at hfin
      by_cases hne : bf.nodes.isEmpty = true
      · rw [if_pos hne] at hfin
        cases hfin
      · rw [if_neg hne] at hfin
        rw [Option.some_bind] at hfin
        simp only [Option.some.injEq] at hfin
        subst hfin
        intro tid hm
        exact hbf.1 tid hm
    | cons top rest =>
      cases rest with
      | nil =>
        rw [hopen] at hfin
        dsimp only at hfin
        cases hclose : closeTopFrame bf with
        | none => rw [hclose] at hfin; cases hfin
        | some bc =>
          rw [hclose, Option.some_bind] at hfin
          have hbc := closeTop_inv hbf hclose
          simp only [Option.some.injEq] at hfin
          subst hfin
          intro tid hm
          exact hbc.1 tid hm
      | cons p ps =>
        rw [hopen] at hfin
        dsimp only at hfin
        cases hfin

/-- C4 counterexample: the builder output for a stream containing a meta
(`Indent`) token after a keyword has the meta token (index 2) in the root
node's children list — a meta token *does* appear as a child, contradicting
the claim that only non-trivia, non-meta tokens appear as children. -/
theorem meta_token_appears_as_child :
    buildTree (asciiBytes "select") exEventsMeta = some exTreeMeta ∧
    childRefs exTreeMeta (nodeRecordAt exTreeMeta 0) =
      [NodeOrTokenRef.token 1, NodeOrTokenRef.token 2] ∧
    tokenKindAt exTreeMeta 2 = .indent ∧
    isMetaKind (tokenKindAt exTreeMeta 2) = true := by
  decide

/-- Witness for `builder_children_not_trivia` on the `select a` tree: the
theorem applied to token reference 1 in the child pool yields its
non-trivia token record. -/
theorem builder_children_not_trivia_witness :
    ∃ tok, exTreeWs.tokens.get? 1 = some tok ∧ isTriviaKind tok.kind = false :=
  builder_children_not_trivia (asciiBytes "select a") exEventsWs exTreeWs (by decide) 1
    (by decide)

/-! ## C5 — `token_at_offset` -/

theorem length_takeWhile_eq {α : Type} (p : α → Bool) :
    ∀ (l : List α) (m : Nat),
      (∀ k, k < m → ∃ x, l.get? k = some x ∧ p x = true) →
      (∃ x, l.get? m = some x ∧ p x = false) →
      (l.takeWhile p).length = m := by
  intro l
  induction l with
  | nil =>
    intro m hall hstop
    rcases hstop with ⟨x, hx, _⟩
    simp at hx
  | cons a as ih =>
    intro m hall hstop
    cases m with
    | zero =>
      rcases hstop with ⟨x, hx, hpx⟩
      rw [List.get?_cons_zero, Option.some.injEq] at hx
      subst hx
      rw [List.takeWhile_cons_of_neg (by simp [hpx])]
      rfl
    | succ m' =>
      rcases hall 0 (Nat.succ_pos _) with ⟨x, hx, hpx⟩
      rw [List.get?_cons_zero, Option.some.injEq] at hx
      subst hx
      rw [List.takeWhile_cons_of_pos (by simp [hpx]), List.length_cons]
      congr 1
      apply ih m'
      · intro k hk
        rcases hall (k + 1) (Nat.succ_lt_succ hk) with ⟨y, hy, hpy⟩
        rw [List.get?_cons_succ] at hy
        exact ⟨y, hy, hpy⟩
      · rcases hstop with ⟨y, hy, hpy⟩
        rw [List.get?_cons_succ] at hy
        exact ⟨y, hy, hpy⟩

theorem takeWhile_eq_self_of_all {α : Type} (p : α → Bool) :
    ∀ l : List α, (∀ x ∈ l, p x = true) → l.takeWhile p = l := by
  intro l
  induction l with
  | nil => intro _; rfl
  | cons a as ih =>
    intro h
    rw [List.takeWhile_cons_of_pos (by simp [h a (by simp)])]
    rw [ih fun x hx => h x (by simp [hx])]

theorem slice_get? (tokens : List Token) (f c k : Nat) (hk : k < c) :
    ((tokens.drop f).take c).get? k = tokens.get? (f + k) := by
  rw [List.get?_take hk, List.get?_drop]

theorem takeWhile_stop_get? {α : Type} (p : α → Bool) :
    ∀ l : List α, (l.takeWhile p).length < l.length →
      ∃ x, l.get? (l.takeWhile p).length = some x ∧ p x = false := by
  intro l
  induction l with
  | nil => intro h; simp at h
  | cons a as ih =>
    intro h
    cases hpa : p a with
    | false =>
      refine ⟨a, ?_, hpa⟩
      rw [List.takeWhile_cons_of_neg (by simp [hpa])]
      rfl
    | true =>
      rw [List.takeWhile_cons_of_pos (by simp [hpa])] at h ⊢
      simp only [List.length_cons] at h ⊢
      rw [List.get?_cons_succ]
      exact ih (by omega)

theorem tokenAtOffset_eval (tree : TreeInner) (n : Node) (offset pp : Nat)
    (hpp : partitionPoint (fun tok => tok.endOff ≤ offset) (tokensRangeSlice tree n) = pp) :
    tokenAtOffset tree n offset =
      if tree.tokens.length ≤ n.firstToken + pp then .none
      else if tokenEndAt tree (n.firstToken + pp) ≤ offset then .none
      else if 1 < n.firstToken + pp ∧ tokenEndAt tree (n.firstToken + pp - 1) = offset then
        .between (n.firstToken + pp - 1) (n.firstToken + pp)
      else .single (n.firstToken + pp) := by
  simp only [tokenAtOffset, hpp]

/-- C5 amended: `token_at_offset` works on the raw token vector — trivia
tokens included — restricted to the node's token slice.  (a) For an offset
at or after the node's start and strictly before the node's end, it returns
the unique token `t` of the token vector whose `[start, end)` contains the
offset, as `Between(t−1, t)` when the offset coincides with the end of the
previous token (any previous token, trivia included, except the index-0
sentinel), else `Single(t)`.  (b) It returns `None` exactly when the
offset is at or past the end of the node's last token and also at or past
the end of the token immediately following the node's token slice
(vacuously when the node's last token is the tree's last); by the
right-to-left direction, offsets past the node's end but below that
following token's end do *not* return `None` — the counterexample shows
such an offset returning a token outside the node. -/
theorem token_at_offset_characterisation :
    (∀ (tree : TreeInner) (n : Node) (offset t : Nat),
        (∀ j, j < tree.tokens.length → ∀ i, i ≤ j → tokenEndAt tree i ≤ tokenEndAt tree j) →
        1 ≤ n.firstToken →
        n.lastToken < tree.tokens.length →
        n.firstToken ≤ t →
        t ≤ n.lastToken →
        tokenEndAt tree (t - 1) ≤ offset →
        offset < tokenEndAt tree t →
        tokenAtOffset tree n offset =
          if 1 < t ∧ tokenEndAt tree (t - 1) = offset then .between (t - 1) t
          else .single t) ∧
    (∀ (tree : TreeInner) (n : Node) (offset : Nat),
        (∀ j, j < tree.tokens.length → ∀ i, i ≤ j → tokenEndAt tree i ≤ tokenEndAt tree j) →
        1 ≤ n.firstToken →
        n.firstToken ≤ n.lastToken →
        n.lastToken < tree.tokens.length →
        (tokenAtOffset tree n offset = .none ↔
          tokenEndAt tree n.lastToken ≤ offset ∧
            (n.lastToken + 1 = tree.tokens.length ∨
              tokenEndAt tree (n.lastToken + 1) ≤ offset))) := by
  constructor
  · intro tree n offset t hmono h1 h2 hft htl hlow hhigh
    have hpp : partitionPoint (fun tok => tok.endOff ≤ offset) (tokensRangeSlice tree n) =
        t - n.firstToken := by
      unfold partitionPoint tokensRangeSlice
      apply length_takeWhile_eq
      · intro k hk
        have hk2 : k < n.lastToken + 1 - n.firstToken := by omega
        rw [slice_get? _ _ _ _ hk2]
        have hin : n.firstToken + k < tree.tokens.length := by omega
        rcases List.get?_eq_get hin with hget
        refine ⟨_, hget, ?_⟩
        have hend : tokenEndAt tree (n.firstToken + k) =
            (tree.tokens.get ⟨n.firstToken + k, hin⟩).endOff := by
          simp only [tokenEndAt, ← List.get?_eq_getElem?, hget, Option.map_some',
            Option.getD_some]
        have hle : tokenEndAt tree (n.firstToken + k) ≤ tokenEndAt tree (t - 1) := by
          apply hmono (t - 1) (by omega) _ (by omega)
        rw [← hend]
        simp only [decide_eq_true_eq]
        omega
      · have hk2 : t - n.firstToken < n.lastToken + 1 - n.firstToken := by omega
        rw [slice_get? _ _ _ _ hk2]
        have ht' : n.firstToken + (t - n.firstToken) = t := by omega
        rw [ht']
        have hin : t < tree.tokens.length := by omega
        rcases List.get?_eq_get hin with hget
        refine ⟨_, hget, ?_⟩
        have hend : tokenEndAt tree t = (tree.tokens.get ⟨t, hin⟩).endOff := by
          simp only [tokenEndAt, ← List.get?_eq_getElem?, hget, Option.map_some',
            Option.getD_some]
        rw [← hend]
        simp only [decide_eq_false_iff_not]
        omega
    simp only [tokenAtOffset]
    rw [hpp, show n.firstToken + (t - n.firstToken) = t from by omega]
    rw [if_neg (by omega), if_neg (by omega)]
  · intro tree n offset hmono h1 hfl h2
    have hlen : (tokensRangeSlice tree n).length = n.lastToken + 1 - n.firstToken := by
      simp only [tokensRangeSlice, List.length_take, List.length_drop]
      omega
    have hfullpp : tokenEndAt tree n.lastToken ≤ offset →
        partitionPoint (fun tok => tok.endOff ≤ offset) (tokensRangeSlice tree n) =
          n.lastToken + 1 - n.firstToken := by
      intro hend
      have hall : ∀ x ∈ tokensRangeSlice tree n, decide (x.endOff ≤ offset) = true := by
        intro x hx
        rcases List.mem_iff_get.mp hx with ⟨⟨k, hk⟩, hxk⟩
        have hk2 : k < n.lastToken + 1 - n.firstToken := hlen ▸ hk
        have hget := slice_get? tree.tokens n.firstToken (n.lastToken + 1 - n.firstToken) k hk2
        have hx' : tree.tokens.get? (n.firstToken + k) = some x := by
          rw [show tree.tokens.get? (n.firstToken + k) =
            (tokensRangeSlice tree n).get? k from hget.symm]
          rw [List.get?_eq_get hk, hxk]
        have hin : n.firstToken + k < tree.tokens.length := (List.get?_eq_some.mp hx').1
        have hende : tokenEndAt tree (n.firstToken + k) = x.endOff := by
          simp only [tokenEndAt, ← List.get?_eq_getElem?, hx', Option.map_some',
            Option.getD_some]
        have hle : tokenEndAt tree (n.firstToken + k) ≤ tokenEndAt tree n.lastToken :=
          hmono n.lastToken h2 _ (by omega)
        simp only [decide_eq_true_eq]
        omega
      unfold partitionPoint
      rw [takeWhile_eq_self_of_all _ _ hall]
      exact hlen
    constructor
    · intro hnone
      by_cases hend : tokenEndAt tree n.lastToken ≤ offset
      · refine ⟨hend, ?_⟩
        rw [tokenAtOffset_eval tree n offset _ (hfullpp hend),
          show n.firstToken + (n.lastToken + 1 - n.firstToken) = n.lastToken + 1 from by
            omega] at hnone
        by_cases hlen2 : tree.tokens.length ≤ n.lastToken + 1
        · left
          omega
        · right
          rw [if_neg hlen2] at hnone
          by_cases hend2 : tokenEndAt tree (n.lastToken + 1) ≤ offset
          · exact hend2
          · exfalso
            rw [if_neg hend2] at hnone
            split at hnone <;> cases hnone
      · exfalso
        set pp := ((tokensRangeSlice tree n).takeWhile
          (fun tok => decide (tok.endOff ≤ offset))).length with hppdef
        have hppeq : partitionPoint (fun tok => tok.endOff ≤ offset)
            (tokensRangeSlice tree n) = pp := by
          unfold partitionPoint
          exact hppdef.symm
        have hple : pp ≤ (tokensRangeSlice tree n).length := by
          rw [hppdef]
          exact (List.takeWhile_prefix _).length_le
        rcases Nat.lt_or_ge pp (tokensRangeSlice tree n).length with hlt | hge
        · have hlt' : ((tokensRangeSlice tree n).takeWhile
              (fun tok => decide (tok.endOff ≤ offset))).length <
              (tokensRangeSlice tree n).length := by
            rw [← hppdef]
            exact hlt
          obtain ⟨x, hgx, hpx⟩ := takeWhile_stop_get?
            (fun tok => decide (tok.endOff ≤ offset)) (tokensRangeSlice tree n) hlt'
          rw [← hppdef] at hgx
          have hppc : pp < n.lastToken + 1 - n.firstToken := by
            rw [hlen] at hlt
            exact hlt
          have hget := slice_get? tree.tokens n.firstToken (n.lastToken + 1 - n.firstToken)
            pp hppc
          have hx' : tree.tokens.get? (n.firstToken + pp) = some x := by
            rw [show tree.tokens.get? (n.firstToken + pp) =
              (tokensRangeSlice tree n).get? pp from hget.symm]
            exact hgx
          have hin : n.firstToken + pp < tree.tokens.length := (List.get?_eq_some.mp hx').1
          have hxe : tokenEndAt tree (n.firstToken + pp) = x.endOff := by
            simp only [tokenEndAt, ← List.get?_eq_getElem?, hx', Option.map_some',
              Option.getD_some]
          have hgt : ¬ tokenEndAt tree (n.firstToken + pp) ≤ offset := by
            rw [hxe]
            exact decide_eq_false_iff_not.mp hpx
          rw [tokenAtOffset_eval tree n offset pp hppeq, if_neg (by omega),
            if_neg hgt] at hnone
          split at hnone <;> cases hnone
        · have heqlen : pp = (tokensRangeSlice tree n).length := le_antisymm hple hge
          have heq : (tokensRangeSlice tree n).takeWhile
              (fun tok => decide (tok.endOff ≤ offset)) = tokensRangeSlice tree n :=
            (List.takeWhile_prefix _).eq_of_length (hppdef.symm.trans heqlen)
          have hk2 : n.lastToken - n.firstToken < n.lastToken + 1 - n.firstToken := by omega
          have hget := slice_get? tree.tokens n.firstToken (n.lastToken + 1 - n.firstToken)
            (n.lastToken - n.firstToken) hk2
          have hlget := List.get?_eq_get h2
          have hmem : tree.tokens.get ⟨n.lastToken, h2⟩ ∈ tokensRangeSlice tree n := by
            apply List.get?_mem (n := n.lastToken - n.firstToken)
            rw [show (tokensRangeSlice tree n).get? (n.lastToken - n.firstToken) =
              tree.tokens.get? (n.firstToken + (n.lastToken - n.firstToken)) from hget,
              show n.firstToken + (n.lastToken - n.firstToken) = n.lastToken from by omega]
            exact hlget
          have hmem' : tree.tokens.get ⟨n.lastToken, h2⟩ ∈
              (tokensRangeSlice tree n).takeWhile
                (fun tok => decide (tok.endOff ≤ offset)) := by
            rw [heq]
            exact hmem
          have hp := List.mem_takeWhile_imp hmem'
          have hxe : tokenEndAt tree n.lastToken =
              (tree.tokens.get ⟨n.lastToken, h2⟩).endOff := by
            simp only [tokenEndAt, ← List.get?_eq_getElem?, hlget, Option.map_some',
              Option.getD_some]
          exact hend (by rw [hxe]; exact of_decide_eq_true hp)
    · rintro ⟨hend, hOr⟩
      rw [tokenAtOffset_eval tree n offset _ (hfullpp hend),
        show n.firstToken + (n.lastToken + 1 - n.firstToken) = n.lastToken + 1 from by omega]
      by_cases hlen2 : tree.tokens.length ≤ n.lastToken + 1
      · rw [if_pos hlen2]
      · rw [if_neg hlen2]
        rcases hOr with h | h
        · exact absurd (le_of_eq h.symm) hlen2
        · rw [if_pos h]

/-- C5 counterexample: in the `select a` tree, offset 6 lies inside the
whitespace trivia token `[6,7)` and is not a boundary between two adjacent
*significant* tokens, yet `token_at_offset` returns
`Between(select, whitespace)` rather than `Single`; and in the S3 tree,
offset 10 is past the last token of the first statement node (which ends at
9), yet the result is `Single(5)` — a token outside the node — rather than
`None`. -/
theorem token_at_offset_counterexample :
    buildTree (asciiBytes "select a") exEventsWs = some exTreeWs ∧
    tokenAtOffset exTreeWs (nodeRecordAt exTreeWs 0) 6 = .between 1 2 ∧
    isTriviaKind (tokenKindAt exTreeWs 2) = true ∧
    tokenStartAt exTreeWs 2 = 6 ∧ tokenEndAt exTreeWs 2 = 7 ∧
    buildTree exTextUnion exEventsUnion = some exTreeUnion ∧
    (nodeRecordAt exTreeUnion 1).lastToken = 4 ∧
    tokenEndAt exTreeUnion 4 = 9 ∧
    tokenAtOffset exTreeUnion (nodeRecordAt exTreeUnion 1) 10 = .single 5 := by
  decide

/-- Witness for `token_at_offset_characterisation`: part (a) at offset 6 of
the `select a` tree (the boundary between `select` and its trailing
whitespace) yields `Between(1, 2)`; part (b) right-to-left yields `None` at
offset 8 of that tree (its root's last token is the tree's last and ends at
8) and at offset 14 on the first statement node of the S3 tree (the node
ends at 9 and the following token — `union` — ends at 14), even though that
tree's last token ends at 23. -/
theorem token_at_offset_characterisation_witness :
    tokenAtOffset exTreeWs (nodeRecordAt exTreeWs 0) 6 = .between 1 2 ∧
    tokenAtOffset exTreeWs (nodeRecordAt exTreeWs 0) 8 = .none ∧
    tokenAtOffset exTreeUnion (nodeRecordAt exTreeUnion 1) 14 = .none := by
  refine ⟨?_, ?_, ?_⟩
  · have h := token_at_offset_characterisation.1 exTreeWs (nodeRecordAt exTreeWs 0) 6 2
      (by decide) (by decide) (by decide) (by decide) (by decide) (by decide) (by decide)
    rw [h]
    decide
  · exact (token_at_offset_characterisation.2 exTreeWs (nodeRecordAt exTreeWs 0) 8
      (by decide) (by decide) (by decide) (by decide)).mpr ⟨by decide, Or.inl (by decide)⟩
  · exact (token_at_offset_characterisation.2 exTreeUnion (nodeRecordAt exTreeUnion 1) 14
      (by decide) (by decide) (by decide) (by decide)).mpr ⟨by decide, Or.inr (by decide)⟩

end TidySQL
